import Mathlib

/-!
# Flag resolution of `zllovesuki/cli`: arity, scoped stores, context lineage

A shallow embedding of `internal/argh/parser_config.go` and `context.go`.

* Go `int` values are `Int`; the functions below only compare them, so no
  wrap-around can occur.
* A nil-pointer dereference is the error value `GoPanic.nilDeref` of `Except`.
* Pointers into acyclic structures (`Flags.Parent`, `Context.parent`) are
  `Option` fields of inductive types; a nil pointer is `none`.
* The store mutex and the `tracef` calls have no effect on results and are left out.
* A function that writes returns the state after the call next to its result.
* Go strings are `String`; byte lengths are `utf8ByteSize`, and the byte order of
  strings is the order of their code points.
-/

namespace Argh

/-! ## Arity -/

/-- The Go type `NValue` (`type NValue int`). -/
abbrev NValue := Int

/-- Arity constant `OneOrMoreValue`. -/
def OneOrMoreValue : NValue := -2

/-- Arity constant `ZeroOrMoreValue`. -/
def ZeroOrMoreValue : NValue := -1

/-- Arity constant `ZeroValue`. -/
def ZeroValue : NValue := 0

/-- Go `func (nv NValue) Required() bool`. -/
def NValue.Required (nv : NValue) : Bool :=
  if nv = OneOrMoreValue then true
  else decide ((nv : Int) ≥ 1)

/-- Go `func (nv NValue) Contains(i int) bool`. -/
def NValue.Contains (nv : NValue) (i : Int) : Bool :=
  if i < (ZeroValue : Int) then false
  else if nv = OneOrMoreValue ∨ nv = ZeroOrMoreValue then true
  else decide ((nv : Int) > i)

/-! ## Strings -/

/-- Go `unicode.IsSpace`: the white space characters of Unicode. -/
def isSpace (c : Char) : Bool :=
  c.toNat ∈ [0x09, 0x0A, 0x0B, 0x0C, 0x0D, 0x20, 0x85, 0xA0, 0x1680, 0x2028, 0x2029, 0x202F,
    0x205F, 0x3000] || (0x2000 ≤ c.toNat && c.toNat ≤ 0x200A)

/-- Go `strings.TrimSpace`: the string without its leading and trailing white
space. -/
def TrimSpace (s : String) : String :=
  String.mk ((s.data.dropWhile isSpace).reverse.dropWhile isSpace).reverse

/-- The pieces of a list of characters between the occurrences of `sep`. -/
def splitChars (sep : Char) : List Char → List (List Char)
  | [] => [[]]
  | c :: cs =>
    if c = sep then [] :: splitChars sep cs
    else
      match splitChars sep cs with
      | [] => [[c]]
      | piece :: pieces => (c :: piece) :: pieces

/-- Go `strings.Split(s, sep)` for a separator of one character: the substrings
between the separators, at least one. -/
def Split (s : String) (sep : Char) : List String :=
  (splitChars sep s.data).map String.mk

/-- Lexicographic comparison of two lists of characters by code point. -/
def lessChars : List Char → List Char → Bool
  | _, [] => false
  | [], _ :: _ => true
  | a :: as, b :: bs =>
    if a.toNat < b.toNat then true
    else if b.toNat < a.toNat then false
    else lessChars as bs

/-- Go `a < b` on strings: the byte-wise order of the UTF-8 encodings, which is
the lexicographic order of the code points. -/
def stringLess (a b : String) : Bool := lessChars a.data b.data

/-- Insertion of a string into an ascending list. -/
def insertSorted (x : String) : List String → List String
  | [] => [x]
  | y :: ys => if stringLess y x then y :: insertSorted x ys else x :: y :: ys

/-- Go `sort.Strings`: the strings in ascending order. -/
def sortStrings (names : List String) : List String :=
  names.foldr insertSorted []

/-! ## Go maps with string keys -/

/-- Outcome of a run that does not return normally. -/
inductive GoPanic where
  | nilDeref : GoPanic
  | nilMapAssign : GoPanic
  deriving DecidableEq, Repr

/-- The non-nil `error` values the functions below return:
`fmt.Errorf("cannot set value of flag without name: %w", Error)` and
`fmt.Errorf("no such flag -%s", name)`. -/
inductive GoError where
  | cannotSetWithoutName : GoError
  | noSuchFlag (name : String) : GoError
  deriving DecidableEq, Repr

/-- A Go `map[string]β`: either the nil map or a list of entries. The order of
the entries stands for the order in which a `range` over the map visits them,
which the Go runtime leaves unspecified. -/
inductive GoMap (β : Type) where
  | nil : GoMap β
  | mk (entries : List (String × β)) : GoMap β

namespace GoMap

/-- Entries of a map; the nil map reads as the empty map. -/
def entries {β : Type} : GoMap β → List (String × β)
  | .nil => []
  | .mk es => es

/-- Entry lookup in a list of entries. -/
def find {β : Type} : List (String × β) → String → Option β
  | [], _ => none
  | (k, v) :: rest, name => if k = name then some v else find rest name

/-- Go `v, ok := m[name]`: `some v` when `ok`, `none` otherwise. -/
def get {β : Type} (m : GoMap β) (name : String) : Option β :=
  find m.entries name

/-- Go `m[name] = v` on the entries of a non-nil map: the entry of an existing
key is replaced, a new key is added. -/
def assign {β : Type} : List (String × β) → String → β → List (String × β)
  | [], name, v => [(name, v)]
  | (k, w) :: rest, name, v =>
    if k = name then (k, v) :: rest else (k, w) :: assign rest name v

/-- Go `len(m)`. -/
def len {β : Type} (m : GoMap β) : Nat := m.entries.length

end GoMap

/-! ## Parsed nodes -/

mutual
/-- Modelled from the spec: the Parsed Flag Node `CommandFlag` (its declaration is
not among the sources): a name, a map from value name to collected value, and
child nodes. -/
inductive CommandFlag where
  | mk (Name : String) (Values : GoMap String) (Nodes : List Node) : CommandFlag
/-- Modelled from the spec: the `Node` interface (its declaration is not among the
sources) with the node kinds the sources test for: `*CommandFlag`,
`*PassthroughArgs`, `*Ident`; `other` is any further kind. -/
inductive Node where
  | commandFlag (n : CommandFlag) : Node
  | passthroughArgs (Nodes : List Node) : Node
  | ident (Literal : String) : Node
  | other : Node
end

/-- Field `Name` of a `CommandFlag`. -/
def CommandFlag.Name : CommandFlag → String
  | .mk n _ _ => n

/-- Field `Values` of a `CommandFlag`. -/
def CommandFlag.Values : CommandFlag → GoMap String
  | .mk _ v _ => v

/-- Field `Nodes` of a `CommandFlag`. -/
def CommandFlag.Nodes : CommandFlag → List Node
  | .mk _ _ ns => ns

/-! ## Flag declarations and the scoped store -/

/-- Go `type FlagConfig struct`; the defaults are the Go zero value `FlagConfig{}`.
`Node` is the pointer `*CommandFlag`, `none` when nil. -/
structure FlagConfig where
  NValue : NValue := 0
  Persist : Bool := false
  ValueNames : List String := []
  Node : Option CommandFlag := none

/-- Go `func (flCfg *FlagConfig) Values() []string`: the values of the node's map
in the order the `range` visits them; empty without a node. -/
def FlagConfig.Values (flCfg : FlagConfig) : List String :=
  match flCfg.Node with
  | none => []
  | some node => node.Values.entries.map Prod.snd

/-- Go `type Flags struct` without its mutex. -/
inductive Flags where
  | mk (Parent : Option Flags) (Map : GoMap FlagConfig) (Automatic : Bool) : Flags

/-- Field `Parent` of a store. -/
def Flags.Parent : Flags → Option Flags
  | .mk p _ _ => p

/-- Field `Map` of a store. -/
def Flags.Map : Flags → GoMap FlagConfig
  | .mk _ m _ => m

/-- Field `Automatic` of a store. -/
def Flags.Automatic : Flags → Bool
  | .mk _ _ a => a

/-- Go `func (fl *Flags) GetShallow(name string) (*FlagConfig, bool)`. The first
component is the value the returned pointer refers to (the zero value when the
name is absent). Replacing a nil `Map` by an empty one does not change what
is read and is not recorded. -/
def Flags.GetShallow (fl : Flags) (name : String) : FlagConfig × Bool :=
  match fl.Map.get name with
  | some flCfg => (flCfg, true)
  | none => ({}, false)

/-- Go `func (fl *Flags) Get(name string) (*FlagConfig, bool)`. -/
def Flags.Get : Flags → String → FlagConfig × Bool
  | .mk Parent Map Automatic, name =>
    match Map.get name with
    | some flCfg => (flCfg, true)
    | none =>
      if Automatic then ({}, true)
      else
        match Parent with
        | some parent =>
          let r := Flags.Get parent name
          (r.1, r.2 && r.1.Persist)
        | none => ({}, false)

/-- Go `func (fl *Flags) Set(name string, flCfg *FlagConfig)`: the store after the
call. -/
def Flags.Set (fl : Flags) (name : String) (flCfg : FlagConfig) : Flags :=
  .mk fl.Parent (.mk (GoMap.assign fl.Map.entries name flCfg)) fl.Automatic

/-- Go `func (fl *Flags) SetDefault(name string, flCfg *FlagConfig)`: the store
after the call. A nil `Map` is first replaced by an empty one. -/
def Flags.SetDefault (fl : Flags) (name : String) (flCfg : FlagConfig) : Flags :=
  let m := fl.Map.entries
  match GoMap.find m name with
  | some _ => .mk fl.Parent (.mk m) fl.Automatic
  | none => .mk fl.Parent (.mk (GoMap.assign m name flCfg)) fl.Automatic

/-- The stores `Get` can reach from a store: the store itself, its parent, the
parent of its parent, and so on. -/
def Flags.chain : Flags → List Flags
  | .mk none m a => [.mk none m a]
  | .mk (some p) m a => .mk (some p) m a :: Flags.chain p

/-- The name resolves along the chain of stores to a declaration with a node: the
first store of the chain that has the name in its own map holds `d` with a non-nil
node, no store before it is automatic, and `d` is marked persist unless that first
store is the head of the chain. -/
def Flags.resolvesMatched (fl : Flags) (name : String) : Prop :=
  ∃ (pre post : List Flags) (s : Flags) (d : FlagConfig),
    fl.chain = pre ++ s :: post ∧
    (∀ t ∈ pre, t.Map.get name = none ∧ t.Automatic = false) ∧
    s.Map.get name = some d ∧ d.Node.isSome = true ∧
    (pre = [] ∨ d.Persist = true)

/-- The name is inherited along the chain of stores: the first store of the chain
that has the name in its own map holds a declaration marked persist, and no store
before it is automatic. -/
def Flags.inheritsPersisted (fl : Flags) (name : String) : Prop :=
  ∃ (pre post : List Flags) (s : Flags) (d : FlagConfig),
    fl.chain = pre ++ s :: post ∧
    (∀ t ∈ pre, t.Map.get name = none ∧ t.Automatic = false) ∧
    s.Map.get name = some d ∧ d.Persist = true

/-! ## Command configurations -/

/-- Go `type CommandConfig struct`. `Flags` and `Node` are pointers (`none` when
nil). The field `Commands` is read by none of the functions below and is left
out. -/
structure CommandConfig where
  NValue : NValue := 0
  ValueNames : List String := []
  Flags : Option Flags := none
  Node : Option CommandFlag := none

/-- Go `func (cCfg *CommandConfig) Lookup(name string) *FlagConfig`: `.ok none` is
the nil result; calling `GetShallow` through a nil `Flags` dereferences nil. -/
def CommandConfig.Lookup (cCfg : CommandConfig) (name : String) :
    Except GoPanic (Option FlagConfig) :=
  match cCfg.Flags with
  | none => .error .nilDeref
  | some fl =>
    let r := fl.GetShallow name
    if r.2 then .ok (some r.1) else .ok none

/-- Go `func (cCfg *CommandConfig) GetFlagConfig(name string) (*FlagConfig, bool)`:
a nil `Flags` is replaced by a fresh store with an empty map before `Get`. -/
def CommandConfig.GetFlagConfig (cCfg : CommandConfig) (name : String) : FlagConfig × Bool :=
  let fl : Argh.Flags :=
    match cCfg.Flags with
    | none => .mk none (.mk []) false
    | some fl => fl
  fl.Get name

/-- The inner loop of `Args` over the nodes of one `PassthroughArgs`: the literal
of every `*Ident` is appended to `ret`. -/
def CommandConfig.argsIdents : List Argh.Node → List String → List String
  | [], ret => ret
  | .ident literal :: rest, ret => CommandConfig.argsIdents rest (ret ++ [literal])
  | _ :: rest, ret => CommandConfig.argsIdents rest ret

/-- The outer loop of `Args` over the children of the command node: only
`*PassthroughArgs` children contribute. -/
def CommandConfig.argsNodes : List Argh.Node → List String → List String
  | [], ret => ret
  | .passthroughArgs nodes :: rest, ret =>
    CommandConfig.argsNodes rest (CommandConfig.argsIdents nodes ret)
  | _ :: rest, ret => CommandConfig.argsNodes rest ret

/-- Go `func (cCfg *CommandConfig) Args() []string`. -/
def CommandConfig.Args (cCfg : CommandConfig) : List String :=
  match cCfg.Node with
  | none => []
  | some node => CommandConfig.argsNodes node.Nodes []

/-- The literal of an identifier node, nothing for any other node. -/
def Node.identLiteral : Node → Option String
  | .ident literal => some literal
  | _ => none

/-- The literals of the identifier nodes a passthrough node holds, in order;
nothing for any other node. -/
def Node.passthroughLiterals : Node → List String
  | .passthroughArgs nodes => nodes.filterMap Node.identLiteral
  | _ => []

/-- Go `func (cCfg *CommandConfig) SetFlagConfig(name string, flCfg *FlagConfig)`:
the configuration after the call; a nil `Flags` is first replaced by a fresh store
with an empty map. -/
def CommandConfig.SetFlagConfig (cCfg : CommandConfig) (name : String) (flCfg : FlagConfig) :
    CommandConfig :=
  let fl : Argh.Flags :=
    match cCfg.Flags with
    | none => .mk none (.mk []) false
    | some fl => fl
  { cCfg with Flags := some (fl.Set name flCfg) }

/-- Go `func (cCfg *CommandConfig) Set(name, value string) error`: the configuration
after the call; the error returned is always nil. -/
def CommandConfig.Set (cCfg : CommandConfig) (name value : String) : CommandConfig :=
  cCfg.SetFlagConfig name { Node := some (.mk name (.mk [(name, value)]) []) }

/-- The statement `flCfg.Node.Values[flCfg.Node.Name] = value` of `FlagConfig.Set`
on the node: assignment to an entry of a nil map panics, otherwise the node has
the entry written. -/
def CommandFlag.setValue (node : CommandFlag) (value : String) : Except GoPanic CommandFlag :=
  match node.Values with
  | .nil => .error .nilMapAssign
  | .mk es => .ok (.mk node.Name (.mk (GoMap.assign es node.Name value)) node.Nodes)

/-- Go `func (flCfg *FlagConfig) Set(value string) error`: the error returned
(`none` for nil) and the declaration the receiver points to after the call. A
declaration without node gets a fresh `&CommandFlag{Name: flCfg.ValueNames[0]}`,
whose `Values` map is nil. -/
def FlagConfig.Set (flCfg : FlagConfig) (value : String) :
    Except GoPanic (Option GoError × FlagConfig) :=
  match flCfg.Node with
  | none =>
    match flCfg.ValueNames with
    | [] => .ok (some .cannotSetWithoutName, flCfg)
    | first :: _ =>
      match (CommandFlag.mk first .nil []).setValue value with
      | .error e => .error e
      | .ok node => .ok (none, { flCfg with Node := some node })
  | some node =>
    match node.setValue value with
    | .error e => .error e
    | .ok node => .ok (none, { flCfg with Node := some node })

/-- Go `func (cCfg *CommandConfig) Visit(f func(*CommandFlag))`: the nodes `f` is
called on, in order. The names of the store's own map are sorted, and `f` gets the
node of every name whose entry has one. Reading the map through a nil `Flags`
dereferences nil. -/
def CommandConfig.Visit (cCfg : CommandConfig) : Except GoPanic (List CommandFlag) :=
  match cCfg.Flags with
  | none => .error .nilDeref
  | some fl =>
    let names := sortStrings (fl.Map.entries.map Prod.fst)
    .ok (names.filterMap (fun name =>
      let r := fl.GetShallow name
      if r.2 then r.1.Node else none))

end Argh

namespace Cli

open Argh

/-! ## Runtime contexts -/

/-- Modelled from the spec: a flag declaration as the context reads it (the `Flag`
and `RequiredFlag` interfaces are not among the sources): its names, whether it
reports itself set, and `IsRequired` when it implements `RequiredFlag`. -/
structure Flag where
  Names : List String := []
  IsSet : Bool := false
  IsRequired : Option Bool := none

/-- Modelled from the spec: the part of `Command` the context reads (its
declaration is not among the sources). -/
structure Command where
  Flags : List Flag := []

/-- Modelled from the spec: the part of `App` the context reads (its declaration
is not among the sources). `InvalidFlagAccessHandler` names the handler the
application supplies, `none` when nil. -/
structure App where
  Flags : List Flag := []
  InvalidFlagAccessHandler : Option Nat := none

/-- Go `type Context struct` without the embedded `context.Context`. The parent
pointer is a field of an inductive type, so every parent chain is finite and
ends at a context without parent. -/
inductive Context where
  | mk (App : Option App) (Command : Option Command) (shellComplete : Bool)
      (parent : Option Context) (flagSet : Option CommandConfig) : Context

/-- Field `App` of a context. -/
def Context.App : Context → Option App
  | .mk a _ _ _ _ => a

/-- Field `Command` of a context. -/
def Context.Command : Context → Option Command
  | .mk _ c _ _ _ => c

/-- Field `parent` of a context. -/
def Context.parent : Context → Option Context
  | .mk _ _ _ p _ => p

/-- Field `flagSet` of a context. -/
def Context.flagSet : Context → Option CommandConfig
  | .mk _ _ _ _ f => f

/-- The loop of `Lineage`, `for cur := cCtx; cur != nil; cur = cur.parent`,
entered at a non-nil `cur` with the slice built so far: `cur` is appended and the
loop goes on at `cur.parent` unless that is nil. -/
def Context.lineageLoop : Context → List Context → List Context
  | .mk a c s parent f, lineage =>
    match parent with
    | none => lineage ++ [.mk a c s none f]
    | some p => Context.lineageLoop p (lineage ++ [.mk a c s (some p) f])

/-- Go `func (cCtx *Context) Lineage() []*Context`. -/
def Context.Lineage (cCtx : Context) : List Context :=
  Context.lineageLoop cCtx []

/-- Number of parent links between a context and the root. -/
def Context.depth : Context → Nat
  | .mk _ _ _ none _ => 0
  | .mk _ _ _ (some p) _ => Context.depth p + 1

/-- One invocation of an invalid-flag-access handler: the handler and the two
arguments it receives. -/
structure HandlerCall where
  handler : Nat
  cCtx : Context
  name : String

/-- Go `func (cCtx *Context) onInvalidFlag(name string)`: the handler invocations
it performs. -/
def Context.onInvalidFlag : Context → String → List HandlerCall
  | .mk app c s parent f, name =>
    match app.bind (fun a => a.InvalidFlagAccessHandler) with
    | some h => [{ handler := h, cCtx := .mk app c s parent f, name := name }]
    | none =>
      match parent with
      | none => []
      | some p => Context.onInvalidFlag p name

/-- The loop of `lookupFlagSet` over the lineage: contexts without flag set are
skipped, the first context whose `Lookup` is non-nil answers. -/
def Context.lookupFlagSetLoop : List Context → String →
    Except GoPanic (Option (CommandConfig × FlagConfig))
  | [], _ => .ok none
  | c :: rest, name =>
    match c.flagSet with
    | none => Context.lookupFlagSetLoop rest name
    | some flagSet =>
      match flagSet.Lookup name with
      | .error e => .error e
      | .ok (some flCfg) => .ok (some (flagSet, flCfg))
      | .ok none => Context.lookupFlagSetLoop rest name

/-- Go `func (cCtx *Context) lookupFlagSet(name string)`: the pair returned
(`none` for `nil, nil`) and the handler invocations made on the way. -/
def Context.lookupFlagSet (cCtx : Context) (name : String) :
    Except GoPanic (Option (CommandConfig × FlagConfig) × List HandlerCall) :=
  match Context.lookupFlagSetLoop cCtx.Lineage name with
  | .error e => .error e
  | .ok (some r) => .ok (some r, [])
  | .ok none => .ok (none, cCtx.onInvalidFlag name)

/-- Go `func (cCtx *Context) IsSet(name string) bool`; a nil `flagSet` is
dereferenced by `GetFlagConfig`. -/
def Context.IsSet (cCtx : Context) (name : String) : Except GoPanic Bool :=
  match cCtx.flagSet with
  | none => .error .nilDeref
  | some flagSet =>
    let r := flagSet.GetFlagConfig name
    .ok (r.2 && r.1.Node.isSome)

/-- Go `func (cCtx *Context) Count(name string) int`. -/
def Context.Count (cCtx : Context) (name : String) : Except GoPanic Nat :=
  match cCtx.lookupFlagSet name with
  | .error e => .error e
  | .ok (none, _) => .ok 0
  | .ok (some (_, flCfg), _) =>
    match flCfg.Node with
    | none => .ok 0
    | some node => .ok node.Values.len

/-- Go `func (cCtx *Context) Value(name string) interface{}`: `none` is the nil
interface value, `some v` the string `v`. -/
def Context.Value (cCtx : Context) (name : String) : Except GoPanic (Option String) :=
  match cCtx.lookupFlagSet name with
  | .error e => .error e
  | .ok (none, _) => .ok none
  | .ok (some (_, flCfg), _) =>
    match flCfg.Node with
    | none => .ok none
    | some _ =>
      match flCfg.Values with
      | v :: _ => .ok (some v)
      | [] => .ok none

/-- The context has no flag set, or the store of its flag set has no entry of its
own for `name`: the lineage walk passes it by. -/
def Context.lacks (x : Context) (name : String) : Prop :=
  x.flagSet = none ∨
    ∃ cfg fl, x.flagSet = some cfg ∧ cfg.Flags = some fl ∧ fl.Map.get name = none

/-- The store of the flag set `cfg` of the context holds `d` for `name` in its own
map. -/
def Context.holds (x : Context) (name : String) (cfg : CommandConfig) (d : FlagConfig) : Prop :=
  x.flagSet = some cfg ∧ ∃ fl, cfg.Flags = some fl ∧ fl.Map.get name = some d

/-- The invalid-flag-access handler the application of the context supplies, if
the context has an application and that application has a handler. -/
def Context.suppliedHandler (x : Context) : Option Nat :=
  x.App.bind (fun a => a.InvalidFlagAccessHandler)

/-- The flag set of a context after a write through the node pointer of its own
entry for `name`: the entry's node is replaced by `node`; `none` when the context
has no entry of its own for `name`. -/
def Context.updateOwnNode (flagSet : Option CommandConfig) (name : String) (node : CommandFlag) :
    Option CommandConfig :=
  match flagSet with
  | none => none
  | some cfg =>
    match cfg.Flags with
    | none => none
    | some fl =>
      match fl.Map.get name with
      | none => none
      | some d =>
        some { cfg with
          Flags := some (.mk fl.Parent
            (.mk (GoMap.assign fl.Map.entries name { d with Node := some node }))
            fl.Automatic) }

/-- The lineage after a write through the node pointer of the entry that
`lookupFlagSet` returned: nodes are held by value inside the entries here, so the
node of the entry of the first context that has `name` in its own store is
replaced. Copies of that store reachable as `Parent` of other stores are not
touched; the lineage walk does not read them. -/
def Context.updateNode : Context → String → CommandFlag → Context
  | .mk a cm s none f, name, node =>
    match Context.updateOwnNode f name node with
    | some cfg => .mk a cm s none (some cfg)
    | none => .mk a cm s none f
  | .mk a cm s (some p) f, name, node =>
    match Context.updateOwnNode f name node with
    | some cfg => .mk a cm s (some p) (some cfg)
    | none => .mk a cm s (some (Context.updateNode p name node)) f

/-- Go `func (cCtx *Context) Set(name, value string) error`: the error returned
(`none` for nil) and the lineage after the call. `FlagConfig.Set` runs on the copy
of the entry that `GetShallow` made: a node it creates stays in the copy, a write
to the value map of an existing node goes through the pointer the entry shares. -/
def Context.Set (cCtx : Context) (name value : String) :
    Except GoPanic (Option GoError × Context) :=
  match cCtx.lookupFlagSet name with
  | .error e => .error e
  | .ok (some (_, flCfg), _) =>
    match flCfg.Set value with
    | .error e => .error e
    | .ok (err, after) =>
      match flCfg.Node, after.Node with
      | some _, some node => .ok (err, cCtx.updateNode name node)
      | _, _ => .ok (err, cCtx)
  | .ok (none, _) => .ok (some (.noSuchFlag name), cCtx)

/-- Go `makeFlagNameVisitor(names)`: the slice `*names` after the returned closure
ran on the node `f`. The name of the node is split at commas, the longest trimmed
part (the first among equals, lengths in bytes) is taken and appended unless it is
empty. -/
def makeFlagNameVisitor (names : List String) (f : CommandFlag) : List String :=
  let nameParts := Split f.Name ','
  let name := nameParts.foldl
    (fun name part =>
      let part := TrimSpace part
      if part.utf8ByteSize > name.utf8ByteSize then part else name)
    (TrimSpace (nameParts.headD ""))
  if name ≠ "" then names ++ [name] else names

/-- The first part of `LocalFlagNames` for a context with flag set `flagSet`: the
names the visitor collects from the matched nodes, followed by all names of the
command flags that report themselves set. -/
def Context.gatheredNames (cCtx : Context) (flagSet : CommandConfig) :
    Except GoPanic (List String) :=
  match flagSet.Visit with
  | .error e => .error e
  | .ok visited =>
    let names := visited.foldl makeFlagNameVisitor []
    match cCtx.Command with
    | none => .ok names
    | some command =>
      .ok (command.Flags.foldl (fun names f => if f.IsSet then names ++ f.Names else names)
        names)

/-- The last loop of `LocalFlagNames`: `m` holds the names seen, `unames` the
names kept so far; a name not yet in `m` is recorded and kept. -/
def Context.uniqueNames : List String → List (String × Unit) → List String → List String
  | [], _, unames => unames
  | name :: rest, m, unames =>
    match GoMap.find m name with
    | some _ => Context.uniqueNames rest m unames
    | none => Context.uniqueNames rest (GoMap.assign m name ()) (unames ++ [name])

/-- Go `func (cCtx *Context) LocalFlagNames() []string`. -/
def Context.LocalFlagNames (cCtx : Context) : Except GoPanic (List String) :=
  match cCtx.flagSet with
  | none => .ok []
  | some flagSet =>
    match cCtx.gatheredNames flagSet with
    | .error e => .error e
    | .ok names => .ok (Context.uniqueNames names [] [])

/-- The loop of `FlagNames` over the lineage with the slice built so far. -/
def Context.flagNamesLoop : List Context → List String → Except GoPanic (List String)
  | [], names => .ok names
  | pCtx :: rest, names =>
    match pCtx.LocalFlagNames with
    | .error e => .error e
    | .ok localNames => Context.flagNamesLoop rest (names ++ localNames)

/-- Go `func (cCtx *Context) FlagNames() []string`. -/
def Context.FlagNames (cCtx : Context) : Except GoPanic (List String) :=
  Context.flagNamesLoop cCtx.Lineage []

/-- The inner loop of `checkRequiredFlags` over the names of one flag, with the
current `flagPresent` and `flagName`. -/
def Context.checkNames (cCtx : Context) : List String → Bool × String →
    Except GoPanic (Bool × String)
  | [], state => .ok state
  | key :: rest, (flagPresent, _) =>
    match cCtx.IsSet (TrimSpace key) with
    | .error e => .error e
    | .ok true => Context.checkNames cCtx rest (true, key)
    | .ok false => Context.checkNames cCtx rest (flagPresent, key)

/-- The outer loop of `checkRequiredFlags` over the flags, with the missing names
collected so far. -/
def Context.checkFlags (cCtx : Context) : List Flag → List String →
    Except GoPanic (List String)
  | [], missingFlags => .ok missingFlags
  | f :: rest, missingFlags =>
    if f.IsRequired = some true then
      match Context.checkNames cCtx f.Names (false, "") with
      | .error e => .error e
      | .ok (flagPresent, flagName) =>
        if !flagPresent && flagName ≠ "" then
          Context.checkFlags cCtx rest (missingFlags ++ [flagName])
        else Context.checkFlags cCtx rest missingFlags
    else Context.checkFlags cCtx rest missingFlags

/-- Go `func (cCtx *Context) checkRequiredFlags(flags []Flag) requiredFlagsErr`:
`none` is the nil result, `some missingFlags` the failure
`&errRequiredFlags{missingFlags: missingFlags}`. -/
def Context.checkRequiredFlags (cCtx : Context) (flags : List Flag) :
    Except GoPanic (Option (List String)) :=
  match Context.checkFlags cCtx flags [] with
  | .error e => .error e
  | .ok missingFlags =>
    if missingFlags.length ≠ 0 then .ok (some missingFlags) else .ok none

/-- The list without the later occurrences of a name that occurred before. -/
def firstOccurrences : List String → List String
  | [] => []
  | x :: xs => x :: (firstOccurrences xs).filter (fun n => decide (n ≠ x))

/-- The names of a scope before duplicates are removed: for each visited node the
name the visitor takes from it, then the names of the command flags that report
themselves set. -/
def Context.scopeNames (cCtx : Context) (visited : List CommandFlag) : List String :=
  (visited.map (makeFlagNameVisitor [])).flatten ++
    match cCtx.Command with
    | none => []
    | some command => ((command.Flags.filter (fun f => f.IsSet)).map (fun f => f.Names)).flatten

/-- Whether `IsSet` returns true for the name. -/
def Context.reportsSet (cCtx : Context) (name : String) : Bool :=
  match cCtx.IsSet name with
  | .ok b => b
  | .error _ => false

/-- The name under which a flag is reported missing, if it is: the flag is
required, `IsSet` is true for none of its trimmed names, and its last name is not
empty; that last name is reported. -/
def Context.missingName (cCtx : Context) (f : Flag) : Option String :=
  if f.IsRequired = some true ∧
      f.Names.any (fun key => cCtx.reportsSet (TrimSpace key)) = false ∧
      f.Names.getLast?.getD "" ≠ "" then
    some (f.Names.getLast?.getD "")
  else none

end Cli

/-! ## Concrete stores and contexts used as examples -/

namespace Examples

open Argh Cli

/-- A declaration marked persist, with arity `Exactly(1)`. -/
def persistDecl : FlagConfig := { NValue := 1, Persist := true, ValueNames := ["v"] }

/-- A declaration not marked persist, with arity `Exactly(2)`. -/
def localDecl : FlagConfig := { NValue := 2, Persist := false, ValueNames := ["w"] }

/-- A root store declaring `shared` (persist) and `private` (not persist). -/
def rootStore : Flags :=
  .mk none (.mk [("shared", persistDecl), ("private", localDecl)]) false

/-- A child store of `rootStore` with one flag of its own. -/
def childStore : Flags :=
  .mk (some rootStore) (.mk [("own", localDecl)]) false

/-- An automatic store on top of `rootStore`. -/
def autoStore : Flags :=
  .mk (some rootStore) .nil true

/-- A declaration of `x` that matched in the root command, collecting `from-root`. -/
def rootMatched : FlagConfig :=
  { NValue := 1, Persist := true, ValueNames := ["x"],
    Node := some (.mk "x" (.mk [("x", "from-root")]) []) }

/-- A declaration of `x` that matched in the subcommand, collecting `from-child`. -/
def childMatched : FlagConfig :=
  { NValue := 1, Persist := true, ValueNames := ["x"],
    Node := some (.mk "x" (.mk [("x", "from-child")]) []) }

/-- A declaration of `local` that matched in the root command, collecting
`only-root`, and is not marked persist. -/
def rootLocalMatched : FlagConfig :=
  { NValue := 1, Persist := false, ValueNames := ["local"],
    Node := some (.mk "local" (.mk [("local", "only-root")]) []) }

/-- The store of the root command: `x` and `local` matched, `quiet` declared but
not matched. -/
def rootMatchedStore : Flags :=
  .mk none (.mk [("x", rootMatched), ("quiet", {}), ("local", rootLocalMatched)]) false

/-- The flag set of the root command. -/
def rootFlagSet : CommandConfig := { Flags := some rootMatchedStore }

/-- The flag set of a subcommand in which `x` matched as well. -/
def childFlagSet : CommandConfig :=
  { Flags := some (.mk none (.mk [("x", childMatched)]) false) }

/-- The root context. -/
def rootCtx : Context := .mk none none false none (some rootFlagSet)

/-- A child context of `rootCtx` whose own flag set matched `x`. -/
def childCtx : Context := .mk none none false (some rootCtx) (some childFlagSet)

/-- The flag set of a subcommand whose empty store has the root store as parent. -/
def linkedFlagSet : CommandConfig :=
  { Flags := some (.mk (some rootMatchedStore) (.mk []) false) }

/-- A child context of `rootCtx` over `linkedFlagSet`. -/
def linkedCtx : Context := .mk none none false (some rootCtx) (some linkedFlagSet)

/-- The tokens of the reordering regression test, some of which look like flags. -/
def regressionTokens : List String :=
  ["zeta", "--beta", "theta", "--alpha", "ori", "--nori", "oin", "--gloin", "-t"]

/-- A parsed command node for `test -t -- zeta --beta ...`: the matched flag `t`
and one passthrough child holding the tokens as identifiers. -/
def regressionNode : CommandFlag :=
  .mk "test" (.mk [])
    [.commandFlag (.mk "t" (.mk []) []),
     .passthroughArgs (regressionTokens.map Node.ident)]

/-- A command configuration whose parsed node is `regressionNode`. -/
def regressionConfig : CommandConfig :=
  { Flags := some (.mk none (.mk [("t", { Node := some (.mk "t" (.mk []) []) })]) false),
    Node := some regressionNode }

/-- A root context whose application supplies the invalid-flag-access handler 7. -/
def hookRootCtx : Context :=
  .mk (some { InvalidFlagAccessHandler := some 7 }) none false none (some rootFlagSet)

/-- A child context of `hookRootCtx` whose application supplies no handler. -/
def hookChildCtx : Context :=
  .mk (some {}) none false (some hookRootCtx) (some childFlagSet)

/-- A root context whose store declares `shared` with a value name but has not
matched it: the declaration has no node. -/
def unmatchedCtx : Context := .mk none none false none (some { Flags := some rootStore })

/-- A root context over `rootFlagSet` whose command has a flag with the names `x`
and `env` that reports itself set, and one that does not. -/
def namesCtx : Context :=
  .mk none
    (some { Flags := [{ Names := ["x", "env"], IsSet := true },
                      { Names := ["unset"], IsSet := false }] })
    false none (some rootFlagSet)

/-- Two required flags, `a` and `b`. -/
def requiredAB : List Flag :=
  [{ Names := ["a"], IsRequired := some true }, { Names := ["b"], IsRequired := some true }]

/-- Two required flags that cannot be reported: one without names, one whose last
name is empty. -/
def requiredUnnamed : List Flag :=
  [{ Names := [], IsRequired := some true },
   { Names := ["missing", ""], IsRequired := some true }]

/-- A store that is not automatic, has an empty map, and has the automatic store
`autoStore` as parent. -/
def underAutoStore : Flags :=
  .mk (some autoStore) (.mk []) false

/-- A child context of `rootCtx` over the zero configuration `&argh.CommandConfig{}`,
whose `Flags` pointer is nil. -/
def zeroConfigCtx : Context := .mk none none false (some rootCtx) (some {})

end Examples

/-! # Theorems -/

namespace Argh

/-! ## Helper lemmas on maps and stores -/

theorem GoMap.find_assign_self {β : Type} (m : List (String × β)) (name : String) (v : β) :
    GoMap.find (GoMap.assign m name v) name = some v := by
  induction m with
  | nil => simp [GoMap.assign, GoMap.find]
  | cons e rest ih =>
    obtain ⟨k, w⟩ := e
    by_cases hk : k = name
    · simp [GoMap.assign, GoMap.find, hk]
    · simp [GoMap.assign, GoMap.find, hk, ih]

theorem GoMap.find_assign_ne {β : Type} (m : List (String × β)) (name other : String) (v : β)
    (hne : other ≠ name) :
    GoMap.find (GoMap.assign m name v) other = GoMap.find m other := by
  induction m with
  | nil =>
    have hne2 : ¬ name = other := fun h => hne h.symm
    simp [GoMap.assign, GoMap.find, hne2]
  | cons e rest ih =>
    obtain ⟨k, w⟩ := e
    by_cases hk : k = name
    · have hko : ¬ k = other := fun h => hne (h.symm.trans hk)
      rw [GoMap.assign, if_pos hk, GoMap.find, if_neg hko, GoMap.find, if_neg hko]
    · rw [GoMap.assign, if_neg hk]
      by_cases hko : k = other
      · rw [GoMap.find, if_pos hko, GoMap.find, if_pos hko]
      · rw [GoMap.find, if_neg hko, GoMap.find, if_neg hko, ih]

theorem GoMap.eq_mk_of_get {β : Type} (m : GoMap β) (name : String) (v : β)
    (h : m.get name = some v) : m = .mk m.entries := by
  cases m with
  | nil => simp [GoMap.get, GoMap.entries, GoMap.find] at h
  | mk es => rfl

theorem GoMap.entries_mk {β : Type} (es : List (String × β)) : (GoMap.mk es).entries = es :=
  rfl

theorem Flags.get_unfold (fl : Flags) (name : String) :
    fl.Get name =
      match fl.Map.get name with
      | some flCfg => (flCfg, true)
      | none =>
        if fl.Automatic then ({}, true)
        else
          match fl.Parent with
          | some parent => ((parent.Get name).1, (parent.Get name).2 && (parent.Get name).1.Persist)
          | none => ({}, false) := by
  obtain ⟨p, m, a⟩ := fl
  simp only [Flags.Map, Flags.Automatic, Flags.Parent]
  cases p with
  | none => rw [Flags.Get.eq_2]
  | some parent => rw [Flags.Get.eq_1]

theorem Flags.get_of_local (fl : Flags) (name : String) (d : FlagConfig)
    (h : fl.Map.get name = some d) : fl.Get name = (d, true) := by
  rw [Flags.get_unfold, h]

theorem Flags.get_of_automatic (fl : Flags) (name : String)
    (hget : fl.Map.get name = none) (hauto : fl.Automatic = true) :
    fl.Get name = ({}, true) := by
  rw [Flags.get_unfold, hget, hauto]
  rfl

theorem Flags.eta (fl : Flags) : Flags.mk fl.Parent fl.Map fl.Automatic = fl := by
  cases fl
  rfl

theorem Flags.chain_cons (fl : Flags) :
    fl.chain = fl :: (match fl.Parent with
      | none => []
      | some p => p.chain) := by
  obtain ⟨p, m, a⟩ := fl
  cases p <;> rfl

theorem Flags.chain_head (fl s : Flags) (post : List Flags)
    (h : fl.chain = [] ++ s :: post) : s = fl := by
  rw [Flags.chain_cons, List.nil_append] at h
  exact (List.cons.inj h).1.symm

theorem Flags.chain_tail (fl t s : Flags) (pre post : List Flags)
    (h : fl.chain = (t :: pre) ++ s :: post) :
    t = fl ∧ ∃ p, fl.Parent = some p ∧ p.chain = pre ++ s :: post := by
  rw [Flags.chain_cons, List.cons_append] at h
  obtain ⟨h1, h2⟩ := List.cons.inj h
  refine ⟨h1.symm, ?_⟩
  cases hp : fl.Parent with
  | none =>
    rw [hp] at h2
    cases pre <;> simp at h2
  | some p =>
    rw [hp] at h2
    exact ⟨p, rfl, h2⟩

/-- The declaration with a node that `Get` finds, read off the chain of stores. -/
theorem Flags.get_matched_iff (name : String) : ∀ (fl : Flags) (d : FlagConfig),
    (fl.Get name = (d, true) ∧ d.Node.isSome = true) ↔
      ∃ (pre post : List Flags) (s : Flags),
        fl.chain = pre ++ s :: post ∧
        (∀ t ∈ pre, t.Map.get name = none ∧ t.Automatic = false) ∧
        s.Map.get name = some d ∧ d.Node.isSome = true ∧
        (pre = [] ∨ d.Persist = true)
  | .mk parent m a, d => by
    have hun := Flags.get_unfold (.mk parent m a) name
    have hch := Flags.chain_cons (.mk parent m a)
    simp only [Flags.Map, Flags.Automatic, Flags.Parent] at hun hch
    constructor
    · rintro ⟨hget, hnode⟩
      cases hm : m.get name with
      | some d0 =>
        rw [hm] at hun
        have hd : d0 = d := by
          have := hun.symm.trans hget
          exact (Prod.mk.inj this).1
        subst hd
        exact ⟨[], _, .mk parent m a, hch, fun t ht => absurd ht (List.not_mem_nil t), hm,
          hnode, Or.inl rfl⟩
      | none =>
        rw [hm] at hun
        cases a with
        | true =>
          have h2 := hun.symm.trans hget
          have hd : d = {} := (Prod.mk.inj h2).1.symm
          rw [hd] at hnode
          exact absurd hnode (by decide)
        | false =>
          cases parent with
          | none =>
            have h2 := hun.symm.trans hget
            exact absurd (Prod.mk.inj h2).2 (by decide)
          | some p =>
            have ih := Flags.get_matched_iff name p d
            have h2 := hun.symm.trans hget
            simp only [Bool.false_eq_true, if_false] at h2
            obtain ⟨h3, h4⟩ := Prod.mk.inj h2
            have h5 : (p.Get name).2 = true ∧ (p.Get name).1.Persist = true := by
              simpa using h4
            have hp : p.Get name = (d, true) := Prod.ext h3 h5.1
            have hpers : d.Persist = true := by
              rw [← h3]
              exact h5.2
            obtain ⟨pre, post, s, hc, hpre, hs, hn, _⟩ := ih.mp ⟨hp, hnode⟩
            refine ⟨.mk (some p) m false :: pre, post, s, ?_, ?_, hs, hn, Or.inr hpers⟩
            · rw [hch]
              show _ :: p.chain = _
              rw [hc]
              rfl
            · intro t ht
              rcases List.mem_cons.mp ht with h | h
              · rw [h]
                exact ⟨hm, rfl⟩
              · exact hpre t h
    · rintro ⟨pre, post, s, hc, hpre, hs, hnode, hpers⟩
      refine ⟨?_, hnode⟩
      cases pre with
      | nil =>
        have hsfl := Flags.chain_head _ s post hc
        rw [hsfl] at hs
        exact Flags.get_of_local _ name d hs
      | cons t pre =>
        obtain ⟨ht, p, hp, hpc⟩ := Flags.chain_tail _ t s pre post hc
        have htl := hpre t (List.mem_cons_self t pre)
        rw [ht] at htl
        simp only [Flags.Map, Flags.Automatic, Flags.Parent] at htl hp
        obtain ⟨hm, ha⟩ := htl
        subst ha
        subst hp
        have ih := Flags.get_matched_iff name p d
        have hd : d.Persist = true := by
          rcases hpers with h | h
          · exact absurd h (List.cons_ne_nil t pre)
          · exact h
        have hpg : p.Get name = (d, true) :=
          (ih.mpr ⟨pre, post, s, hpc, fun u hu => hpre u (List.mem_cons_of_mem t hu), hs,
            hnode, Or.inr hd⟩).1
        rw [hm] at hun
        rw [hun]
        simp [hpg, hd]

/-! ## Arity -/

/-- C3: `Contains` follows the arity definition. For `Exactly(n)` with `n ≥ 0`,
`Contains(i)` holds iff `0 ≤ i < n`; for `ZeroOrMore` and `OneOrMore` it holds iff
`i ≥ 0`; for every `NValue` whatever it is false when `i < 0`. -/
theorem NValue.contains_spec (nv : NValue) (i : Int) :
    (0 ≤ nv → (NValue.Contains nv i = true ↔ 0 ≤ i ∧ i < nv)) ∧
    (nv = ZeroOrMoreValue ∨ nv = OneOrMoreValue → (NValue.Contains nv i = true ↔ 0 ≤ i)) ∧
    (i < 0 → NValue.Contains nv i = false) := by
  refine ⟨?_, ?_, ?_⟩
  · intro hnv
    have hnv0 : (0 : Int) ≤ (nv : Int) := hnv
    have h1 : ¬ nv = OneOrMoreValue := by
      intro h
      rw [h] at hnv0
      exact absurd hnv0 (by decide)
    have h2 : ¬ nv = ZeroOrMoreValue := by
      intro h
      rw [h] at hnv0
      exact absurd hnv0 (by decide)
    by_cases hi : i < (ZeroValue : Int)
    · have hi0 : i < 0 := hi
      simp only [NValue.Contains, if_pos hi]
      constructor
      · intro h
        exact absurd h (by decide)
      · intro h
        omega
    · have hi0 : ¬ i < 0 := hi
      simp only [NValue.Contains, if_neg hi, h1, h2, or_self, if_false, decide_eq_true_eq]
      constructor
      · intro h
        exact ⟨by omega, h⟩
      · intro h
        exact h.2
  · intro hnv
    have h : nv = OneOrMoreValue ∨ nv = ZeroOrMoreValue := hnv.symm
    by_cases hi : i < (ZeroValue : Int)
    · have hi0 : i < 0 := hi
      simp only [NValue.Contains, if_pos hi]
      constructor
      · intro h
        exact absurd h (by decide)
      · intro h
        omega
    · have hi0 : ¬ i < 0 := hi
      simp only [NValue.Contains, if_neg hi, if_pos h, true_iff]
      omega
  · intro hi
    have hi0 : i < (ZeroValue : Int) := hi
    simp only [NValue.Contains, if_pos hi0]

/-- Witness for C3 at `Exactly(3)` with counts 2 and -1, and at `ZeroOrMore` with
count 5. -/
theorem NValue.contains_spec_witness :
    ((0 : Int) ≤ 3 ∧ (NValue.Contains 3 2 = true ↔ (0 : Int) ≤ 2 ∧ (2 : Int) < 3)) ∧
    ((ZeroOrMoreValue = ZeroOrMoreValue ∨ ZeroOrMoreValue = OneOrMoreValue) ∧
      (NValue.Contains ZeroOrMoreValue 5 = true ↔ (0 : Int) ≤ 5)) ∧
    ((-1 : Int) < 0 ∧ NValue.Contains 3 (-1) = false) :=
  ⟨⟨by decide, (NValue.contains_spec 3 2).1 (by decide)⟩,
   ⟨Or.inl rfl, (NValue.contains_spec ZeroOrMoreValue 5).2.1 (Or.inl rfl)⟩,
   ⟨by decide, (NValue.contains_spec 3 (-1)).2.2 (by decide)⟩⟩

/-- C4: `Required` is true exactly for `OneOrMore` and for `Exactly(n)` with
`n ≥ 1`; in particular it is false for `Zero` and for `ZeroOrMore`. -/
theorem NValue.required_spec (nv : NValue) :
    (NValue.Required nv = true ↔ nv = OneOrMoreValue ∨ nv ≥ 1) ∧
    NValue.Required ZeroValue = false ∧ NValue.Required ZeroOrMoreValue = false := by
  refine ⟨?_, by decide, by decide⟩
  unfold NValue.Required OneOrMoreValue
  by_cases h : nv = -2
  · simp [h]
  · simp [h]

/-! ## The scoped store -/

/-- C1: scoping of `Get`. For a child store that is not automatic, has a parent
and has no entry of its own for `name`, while the parent holds the local
declaration `d`: `Get` reports found iff `d.Persist`, and the declaration it
returns is `d`. -/
theorem Flags.get_scoping (child parent : Flags) (name : String) (d : FlagConfig)
    (hauto : child.Automatic = false) (hparent : child.Parent = some parent)
    (hown : child.Map.get name = none) (hdecl : parent.Map.get name = some d) :
    ((child.Get name).2 = true ↔ d.Persist = true) ∧ (child.Get name).1 = d := by
  have hp : parent.Get name = (d, true) := Flags.get_of_local parent name d hdecl
  have hc : child.Get name = (d, d.Persist) := by
    rw [Flags.get_unfold, hown, hauto, hparent]
    simp [hp]
  rw [hc]
  exact ⟨Iff.rfl, rfl⟩

/-- Witness for C1: `childStore` looks up `shared`, declared persist in its
parent `rootStore`. -/
theorem Flags.get_scoping_witness :
    ((Examples.childStore.Get "shared").2 = true ↔ Examples.persistDecl.Persist = true) ∧
      (Examples.childStore.Get "shared").1 = Examples.persistDecl :=
  Flags.get_scoping Examples.childStore Examples.rootStore "shared" Examples.persistDecl
    rfl rfl rfl rfl

/-- C2: `Get` is local-first, then automatic. A name in the store's own map is
returned with found = true whatever `Automatic` and `Parent` hold; a name absent
from an automatic store yields the empty declaration with found = true whatever
the parent holds; a name absent from a store that is not automatic and has no
parent is not found. -/
theorem Flags.get_local_first (fl : Flags) (name : String) :
    (∀ d, fl.Map.get name = some d → fl.Get name = (d, true)) ∧
    (fl.Map.get name = none → fl.Automatic = true →
      fl.Get name =
        ({ NValue := ZeroValue, Persist := false, ValueNames := [], Node := none }, true)) ∧
    (fl.Map.get name = none → fl.Automatic = false → fl.Parent = none →
      (fl.Get name).2 = false) := by
  refine ⟨?_, ?_, ?_⟩
  · intro d hd
    exact Flags.get_of_local fl name d hd
  · intro hn ha
    exact Flags.get_of_automatic fl name hn ha
  · intro hn ha hp
    rw [Flags.get_unfold, hn, ha, hp]
    rfl

/-- Witness for C2: `childStore` holds `own`; `autoStore` lacks `zzz` and is
automatic; `rootStore` lacks `zzz`, is not automatic and has no parent. -/
theorem Flags.get_local_first_witness :
    Examples.childStore.Get "own" = (Examples.localDecl, true) ∧
    Examples.autoStore.Get "zzz" =
      ({ NValue := ZeroValue, Persist := false, ValueNames := [], Node := none }, true) ∧
    (Examples.rootStore.Get "zzz").2 = false :=
  ⟨(Flags.get_local_first Examples.childStore "own").1 Examples.localDecl rfl,
   (Flags.get_local_first Examples.autoStore "zzz").2.1 rfl rfl,
   (Flags.get_local_first Examples.rootStore "zzz").2.2 rfl rfl rfl⟩

/-- C10: `SetDefault` writes only if absent. When the name is in the store's own
map the store is left as it was; when it is absent the store is the one `Set`
produces. -/
theorem Flags.setDefault_only_if_absent (fl : Flags) (name : String) (d : FlagConfig) :
    ((fl.Map.get name).isSome = true → fl.SetDefault name d = fl) ∧
    (fl.Map.get name = none → fl.SetDefault name d = fl.Set name d) := by
  obtain ⟨p, m, a⟩ := fl
  simp only [Flags.Map]
  refine ⟨?_, ?_⟩
  · intro h
    obtain ⟨d0, hd0⟩ := Option.isSome_iff_exists.mp h
    have hm := GoMap.eq_mk_of_get m name d0 hd0
    have hf : GoMap.find m.entries name = some d0 := hd0
    simp only [Flags.SetDefault, Flags.Map, Flags.Parent, Flags.Automatic, hf]
    rw [← hm]
  · intro h
    have hf : GoMap.find m.entries name = none := h
    simp only [Flags.SetDefault, Flags.Set, Flags.Map, Flags.Parent, Flags.Automatic, hf]

/-- Witness for C10: `rootStore` already holds `shared` and does not hold `fresh`. -/
theorem Flags.setDefault_only_if_absent_witness :
    Examples.rootStore.SetDefault "shared" Examples.localDecl = Examples.rootStore ∧
    Examples.rootStore.SetDefault "fresh" Examples.localDecl =
      Examples.rootStore.Set "fresh" Examples.localDecl :=
  ⟨(Flags.setDefault_only_if_absent Examples.rootStore "shared" Examples.localDecl).1 rfl,
   (Flags.setDefault_only_if_absent Examples.rootStore "fresh" Examples.localDecl).2 rfl⟩

/-- C9 fails as stated: `rootStore` already declares `shared` as `persistDecl`, and
after `SetDefault` with `localDecl` and then with the empty declaration the store
still resolves `shared` to `persistDecl`, which is not `localDecl`. -/
theorem Flags.setDefault_twice_counterexample :
    Flags.Get ((Examples.rootStore.SetDefault "shared" Examples.localDecl).SetDefault
        "shared" {}) "shared" = (Examples.persistDecl, true) ∧
    Flags.Get ((Examples.rootStore.SetDefault "shared" Examples.localDecl).SetDefault
        "shared" {}) "shared" ≠ (Examples.localDecl, true) := by
  refine ⟨rfl, ?_⟩
  intro h
  have h2 := congrArg (fun r => r.1.Persist) h
  exact absurd h2 (by decide)

/-- C9, amended: when `name` is absent from the store's own map, `SetDefault` with
`d1` followed by `SetDefault` with `d2` leaves the store resolving `name` to `d1`
with found = true. -/
theorem Flags.setDefault_twice (fl : Flags) (name : String) (d1 d2 : FlagConfig)
    (habsent : fl.Map.get name = none) :
    Flags.Get ((fl.SetDefault name d1).SetDefault name d2) name = (d1, true) := by
  obtain ⟨p, m, a⟩ := fl
  have hf : GoMap.find m.entries name = none := habsent
  have h1 : (Flags.mk p m a).SetDefault name d1 =
      .mk p (.mk (GoMap.assign m.entries name d1)) a := by
    simp only [Flags.SetDefault, Flags.Map, Flags.Parent, Flags.Automatic, hf]
  have hs := GoMap.find_assign_self m.entries name d1
  have h2 : (Flags.mk p (.mk (GoMap.assign m.entries name d1)) a).SetDefault name d2 =
      .mk p (.mk (GoMap.assign m.entries name d1)) a := by
    simp only [Flags.SetDefault, Flags.Map, Flags.Parent, Flags.Automatic, GoMap.entries_mk, hs]
  rw [h1, h2]
  exact Flags.get_of_local _ name d1 hs

/-- Witness for the amended C9: `rootStore` does not hold `fresh`. -/
theorem Flags.setDefault_twice_witness :
    Examples.rootStore.Map.get "fresh" = none ∧
    Flags.Get ((Examples.rootStore.SetDefault "fresh" Examples.localDecl).SetDefault
        "fresh" Examples.persistDecl) "fresh" = (Examples.localDecl, true) :=
  ⟨rfl, Flags.setDefault_twice Examples.rootStore "fresh" Examples.localDecl
    Examples.persistDecl rfl⟩

end Argh

namespace Cli

open Argh

/-! ## Helper lemmas on the lineage and its walk -/

theorem Context.lineageLoop_acc : ∀ (c : Context) (acc : List Context),
    Context.lineageLoop c acc = acc ++ Context.lineageLoop c []
  | .mk a cm s none f, acc => by
    simp [Context.lineageLoop]
  | .mk a cm s (some p) f, acc => by
    have h1 := Context.lineageLoop_acc p (acc ++ [.mk a cm s (some p) f])
    have h2 := Context.lineageLoop_acc p ([] ++ [.mk a cm s (some p) f])
    simp only [Context.lineageLoop, h1, h2]
    simp

theorem Context.lineage_root (a : Option Cli.App) (cm : Option Cli.Command) (s : Bool)
    (f : Option CommandConfig) :
    (Context.mk a cm s none f).Lineage = [.mk a cm s none f] := by
  simp [Context.Lineage, Context.lineageLoop]

theorem Context.lineage_child (a : Option Cli.App) (cm : Option Cli.Command) (s : Bool)
    (p : Context) (f : Option CommandConfig) :
    (Context.mk a cm s (some p) f).Lineage = .mk a cm s (some p) f :: p.Lineage := by
  have h := Context.lineageLoop_acc p ([] ++ [.mk a cm s (some p) f])
  simp only [Context.Lineage, Context.lineageLoop, h]
  simp

theorem Context.lineage_cons (c : Context) :
    c.Lineage = c :: (match c.parent with
      | none => []
      | some p => p.Lineage) := by
  obtain ⟨a, cm, s, p, f⟩ := c
  cases p with
  | none => exact Context.lineage_root a cm s f
  | some p => exact Context.lineage_child a cm s p f

theorem Context.lineage_links : ∀ c : Context,
    c.Lineage.tail.map some = c.Lineage.dropLast.map Context.parent
  | .mk a cm s none f => by
    rw [Context.lineage_root]
    rfl
  | .mk a cm s (some p) f => by
    have ih := Context.lineage_links p
    have hp := Context.lineage_cons p
    rw [Context.lineage_child]
    rw [hp] at ih ⊢
    simp only [List.tail_cons, List.dropLast_cons₂, List.map_cons] at ih ⊢
    rw [← ih]
    rfl

theorem Context.lineage_last : ∀ c : Context,
    c.Lineage.getLast?.map Context.parent = some none
  | .mk a cm s none f => by
    rw [Context.lineage_root]
    rfl
  | .mk a cm s (some p) f => by
    have ih := Context.lineage_last p
    have hp := Context.lineage_cons p
    rw [Context.lineage_child]
    rw [hp] at ih ⊢
    rw [List.getLast?_cons_cons]
    exact ih

theorem Context.lineage_length : ∀ c : Context, c.Lineage.length = c.depth + 1
  | .mk a cm s none f => by
    rw [Context.lineage_root]
    rfl
  | .mk a cm s (some p) f => by
    have ih := Context.lineage_length p
    rw [Context.lineage_child, List.length_cons, ih]
    rfl


theorem Context.lookupFlagSetLoop_skip (name : String) (rest : List Context) :
    ∀ pre : List Context, (∀ y ∈ pre, y.lacks name) →
      Context.lookupFlagSetLoop (pre ++ rest) name = Context.lookupFlagSetLoop rest name
  | [], _ => rfl
  | y :: pre, h => by
    have ih := Context.lookupFlagSetLoop_skip name rest pre
      (fun z hz => h z (List.mem_cons_of_mem y hz))
    have hy := h y (List.mem_cons_self y pre)
    rw [List.cons_append, Context.lookupFlagSetLoop]
    rcases hy with hnone | ⟨cfg, fl, hcfg, hfl, hget⟩
    · rw [hnone]
      exact ih
    · rw [hcfg]
      simp only [CommandConfig.Lookup, hfl, Flags.GetShallow, hget]
      exact ih

theorem Context.lookupFlagSetLoop_hit (name : String) (x : Context) (post : List Context)
    (cfg : CommandConfig) (d : FlagConfig) (h : x.holds name cfg d) :
    Context.lookupFlagSetLoop (x :: post) name = .ok (some (cfg, d)) := by
  obtain ⟨hcfg, fl, hfl, hget⟩ := h
  rw [Context.lookupFlagSetLoop, hcfg]
  simp only [CommandConfig.Lookup, hfl, Flags.GetShallow, hget]
  rfl

theorem Context.lookupFlagSet_none (c : Context) (name : String)
    (h : ∀ y ∈ c.Lineage, y.lacks name) :
    c.lookupFlagSet name = .ok (none, c.onInvalidFlag name) := by
  have h1 := Context.lookupFlagSetLoop_skip name [] c.Lineage h
  rw [List.append_nil] at h1
  rw [Context.lookupFlagSet, h1]
  rfl

theorem Context.lookupFlagSet_first (c : Context) (name : String)
    (pre post : List Context) (x : Context) (cfg : CommandConfig) (d : FlagConfig)
    (hsplit : c.Lineage = pre ++ x :: post) (hpre : ∀ y ∈ pre, y.lacks name)
    (hx : x.holds name cfg d) :
    c.lookupFlagSet name = .ok (some (cfg, d), []) := by
  have h1 := Context.lookupFlagSetLoop_skip name (x :: post) pre hpre
  have h2 := Context.lookupFlagSetLoop_hit name x post cfg d hx
  rw [Context.lookupFlagSet, hsplit, h1, h2]

/-! ## Lineage and the lookups through it -/

/-- C5: `Lineage` is the chain from the context to the root. It is the context
followed by the lineage of its parent (hence non-empty); its first element is the
context; each later element is the parent of the element before it (the tail, read
as non-nil pointers, is the list of parents of all elements but the last); its last
element has a nil parent; its length is the depth plus one. -/
theorem Context.lineage_spec (c : Context) :
    c.Lineage = c :: (match c.parent with
      | none => []
      | some p => p.Lineage) ∧
    c.Lineage.head? = some c ∧
    c.Lineage.tail.map some = c.Lineage.dropLast.map Context.parent ∧
    c.Lineage.getLast?.map Context.parent = some none ∧
    c.Lineage.length = c.depth + 1 := by
  refine ⟨Context.lineage_cons c, ?_, Context.lineage_links c, Context.lineage_last c,
    Context.lineage_length c⟩
  rw [Context.lineage_cons c]
  rfl

/-- C6: lineage precedence. When the own store of a child context and the store of
its parent context both hold a declaration with a matched node for `name`, `Value`
on the child returns the first value the child's node collected; with a single
collected value `v` that is `v`. The parent's node plays no part. -/
theorem Context.value_child_first (c p : Context) (name : String)
    (cfgC cfgP : CommandConfig) (dC dP : FlagConfig) (nC nP : CommandFlag)
    (_hpar : c.parent = some p)
    (hc : c.holds name cfgC dC) (hnc : dC.Node = some nC)
    (_hp : p.holds name cfgP dP) (_hnp : dP.Node = some nP) :
    c.Value name = .ok ((nC.Values.entries.map Prod.snd).head?) ∧
    (∀ k v, nC.Values.entries = [(k, v)] → c.Value name = .ok (some v)) := by
  have hl := Context.lookupFlagSet_first c name [] _ c cfgC dC (Context.lineage_cons c)
    (fun y hy => absurd hy (List.not_mem_nil y)) hc
  have hv : c.Value name = .ok ((nC.Values.entries.map Prod.snd).head?) := by
    simp only [Context.Value, hl, hnc, FlagConfig.Values]
    cases nC.Values.entries.map Prod.snd <;> rfl
  refine ⟨hv, ?_⟩
  intro k v hkv
  rw [hv, hkv]
  rfl

/-- Witness for C6: `childCtx` and its parent `rootCtx` both matched `x`; the child
collected `from-child`. -/
theorem Context.value_child_first_witness :
    Examples.childCtx.Value "x" = .ok (some "from-child") :=
  (Context.value_child_first Examples.childCtx Examples.rootCtx "x"
    Examples.childFlagSet Examples.rootFlagSet Examples.childMatched Examples.rootMatched
    (.mk "x" (.mk [("x", "from-child")]) []) (.mk "x" (.mk [("x", "from-root")]) [])
    rfl ⟨rfl, _, rfl, rfl⟩ rfl ⟨rfl, _, rfl, rfl⟩ rfl).2 "x" "from-child" rfl

/-- The behaviour of `Count` through a lineage whose flag sets all have a store. It
is 0 when no context of the lineage holds the name; when `x` is the first context of the lineage that holds the name, with
declaration `d`, it is 0 if `d` has no node and otherwise the number of entries of
the node's value map. -/
theorem Context.count_spec (c : Context) (name : String) :
    ((∀ y ∈ c.Lineage, y.lacks name) → c.Count name = .ok 0) ∧
    (∀ (pre post : List Context) (x : Context) (cfg : CommandConfig) (d : FlagConfig),
      c.Lineage = pre ++ x :: post → (∀ y ∈ pre, y.lacks name) → x.holds name cfg d →
      c.Count name = .ok (match d.Node with
        | none => 0
        | some node => node.Values.len)) := by
  refine ⟨?_, ?_⟩
  · intro h
    simp only [Context.Count, Context.lookupFlagSet_none c name h]
  · intro pre post x cfg d hsplit hpre hx
    simp only [Context.Count, Context.lookupFlagSet_first c name pre post x cfg d hsplit hpre hx]
    cases d.Node <;> rfl

/-- An instance of `count_spec`: from `childCtx` no context holds `zzz`; `childCtx` itself holds
`x` with one collected value; `rootCtx` is the first to hold `quiet`, which has
no node. -/
theorem Context.count_spec_witness :
    Examples.childCtx.Count "zzz" = .ok 0 ∧
    Examples.childCtx.Count "x" = .ok 1 ∧
    Examples.childCtx.Count "quiet" = .ok 0 := by
  have hlin : Examples.childCtx.Lineage = [Examples.childCtx, Examples.rootCtx] := rfl
  refine ⟨?_, ?_, ?_⟩
  · refine (Context.count_spec Examples.childCtx "zzz").1 ?_
    intro y hy
    rw [hlin] at hy
    rcases List.mem_cons.mp hy with h | h
    · rw [h]
      exact Or.inr ⟨_, _, rfl, rfl, rfl⟩
    · rw [List.mem_singleton.mp h]
      exact Or.inr ⟨_, _, rfl, rfl, rfl⟩
  · exact (Context.count_spec Examples.childCtx "x").2 [] [Examples.rootCtx]
      Examples.childCtx Examples.childFlagSet Examples.childMatched rfl
      (fun y hy => absurd hy (List.not_mem_nil y)) ⟨rfl, _, rfl, rfl⟩
  · refine (Context.count_spec Examples.childCtx "quiet").2 [Examples.childCtx] []
      Examples.rootCtx Examples.rootFlagSet {} rfl ?_ ⟨rfl, _, rfl, rfl⟩
    intro y hy
    rw [List.mem_singleton.mp hy]
    exact Or.inr ⟨_, _, rfl, rfl, rfl⟩

/-- C7 fails as stated: the store of `linkedCtx` lacks `local` and has the root
store as parent; the lineage walk from `linkedCtx` reaches its ancestor `rootCtx`,
which holds a matched node for `local` (`Value` returns what that node collected),
yet `IsSet` is false, because the root declares `local` without persist. -/
theorem Context.isSet_lineage_counterexample :
    Examples.linkedCtx.lacks "local" ∧
    Examples.rootCtx ∈ Examples.linkedCtx.Lineage ∧
    Examples.rootCtx.holds "local" Examples.rootFlagSet Examples.rootLocalMatched ∧
    Examples.rootLocalMatched.Node.isSome = true ∧
    Examples.linkedCtx.Value "local" = .ok (some "only-root") ∧
    Examples.linkedCtx.IsSet "local" = .ok false := by
  have hlin : Examples.linkedCtx.Lineage = [Examples.linkedCtx, Examples.rootCtx] := rfl
  refine ⟨Or.inr ⟨_, _, rfl, rfl, rfl⟩, ?_, ⟨rfl, _, rfl, rfl⟩, rfl, rfl, rfl⟩
  rw [hlin]
  exact List.mem_cons_of_mem _ (List.mem_singleton.mpr rfl)

/-- C7, amended: on a context that has a flag set, `IsSet` returns, and it is true
iff `Get` on the store of that flag set resolves the name to a declaration with a
non-nil node: the first store on the chain of parent stores that has the name in
its own map holds such a declaration, no store before it is automatic, and the
declaration is marked persist unless that store is the flag set's own. With a nil
store, or when the name is absent from an automatic store, `IsSet` is false. -/
theorem Context.isSet_spec (c : Context) (name : String) (cfg : CommandConfig)
    (hfs : c.flagSet = some cfg) :
    (∀ fl, cfg.Flags = some fl →
      ∃ b, c.IsSet name = .ok b ∧ (b = true ↔ fl.resolvesMatched name)) ∧
    (cfg.Flags = none → c.IsSet name = .ok false) ∧
    (∀ fl, cfg.Flags = some fl → fl.Map.get name = none → fl.Automatic = true →
      c.IsSet name = .ok false) := by
  refine ⟨?_, ?_, ?_⟩
  · intro fl hfl
    refine ⟨(fl.Get name).2 && (fl.Get name).1.Node.isSome, ?_, ?_⟩
    · simp only [Context.IsSet, hfs, CommandConfig.GetFlagConfig, hfl]
    · have hiff := Flags.get_matched_iff name fl (fl.Get name).1
      constructor
      · intro hb
        have hb2 : (fl.Get name).2 = true ∧ (fl.Get name).1.Node.isSome = true := by
          simpa using hb
        obtain ⟨pre, post, s, h1, h2, h3, h4, h5⟩ := hiff.mp ⟨Prod.ext rfl hb2.1, hb2.2⟩
        exact ⟨pre, post, s, _, h1, h2, h3, h4, h5⟩
      · rintro ⟨pre, post, s, d, h1, h2, h3, h4, h5⟩
        have hg := ((Flags.get_matched_iff name fl d).mpr ⟨pre, post, s, h1, h2, h3, h4, h5⟩).1
        rw [hg]
        simp [h4]
  · intro hfl
    simp only [Context.IsSet, hfs, CommandConfig.GetFlagConfig, hfl]
    rfl
  · intro fl hfl hget hauto
    have hg := Flags.get_of_automatic fl name hget hauto
    simp only [Context.IsSet, hfs, CommandConfig.GetFlagConfig, hfl, hg]
    rfl

/-- Witness for the amended C7: the store of `linkedCtx` lacks `x` and has the
root store as parent, where `x` matched and is marked persist; `IsSet` is true. -/
theorem Context.isSet_spec_witness :
    Examples.linkedCtx.flagSet = some Examples.linkedFlagSet ∧
    (∃ b, Examples.linkedCtx.IsSet "x" = .ok b ∧
      (b = true ↔ Flags.resolvesMatched (.mk (some Examples.rootMatchedStore) (.mk []) false) "x")) ∧
    Examples.linkedCtx.IsSet "x" = .ok true :=
  ⟨rfl, (Context.isSet_spec Examples.linkedCtx "x" Examples.linkedFlagSet rfl).1 _ rfl, rfl⟩

end Cli

namespace Argh

/-! ## Unconditional writes -/

/-- C11: `Set` is an unconditional overwrite. Whatever the store held before
(an entry for the name or none, automatic or not, with or without parent), after
`Set` a `Get` of the name returns the declaration written with found = true, and
the local entry of every other name is the one the store had before. -/
theorem Flags.set_overwrites (fl : Flags) (name : String) (d : FlagConfig) :
    (fl.Set name d).Get name = (d, true) ∧
    (∀ other, other ≠ name → (fl.Set name d).Map.get other = fl.Map.get other) := by
  refine ⟨?_, ?_⟩
  · apply Flags.get_of_local
    exact GoMap.find_assign_self fl.Map.entries name d
  · intro other hne
    exact GoMap.find_assign_ne fl.Map.entries name other d hne

/-- Witness for C11: `childStore` gets `own` overwritten; its entry lookup of
`shared` (none of its own) is the same afterwards. -/
theorem Flags.set_overwrites_witness :
    (Examples.childStore.Set "own" Examples.persistDecl).Get "own" =
      (Examples.persistDecl, true) ∧
    ("shared" ≠ "own" ∧
      (Examples.childStore.Set "own" Examples.persistDecl).Map.get "shared" =
        Examples.childStore.Map.get "shared") :=
  ⟨(Flags.set_overwrites Examples.childStore "own" Examples.persistDecl).1,
   by decide,
   (Flags.set_overwrites Examples.childStore "own" Examples.persistDecl).2 "shared"
     (by decide)⟩

end Argh

namespace Argh

/-! ## Passthrough arguments -/

theorem CommandConfig.argsIdents_eq : ∀ (nodes : List Argh.Node) (ret : List String),
    CommandConfig.argsIdents nodes ret = ret ++ nodes.filterMap Node.identLiteral
  | [], ret => by simp [CommandConfig.argsIdents]
  | .ident literal :: rest, ret => by
    have ih := CommandConfig.argsIdents_eq rest (ret ++ [literal])
    simp [CommandConfig.argsIdents, ih, Node.identLiteral]
  | .commandFlag n :: rest, ret => by
    have ih := CommandConfig.argsIdents_eq rest ret
    simp [CommandConfig.argsIdents, ih, Node.identLiteral]
  | .passthroughArgs ns :: rest, ret => by
    have ih := CommandConfig.argsIdents_eq rest ret
    simp [CommandConfig.argsIdents, ih, Node.identLiteral]
  | .other :: rest, ret => by
    have ih := CommandConfig.argsIdents_eq rest ret
    simp [CommandConfig.argsIdents, ih, Node.identLiteral]

theorem CommandConfig.argsNodes_eq : ∀ (nodes : List Argh.Node) (ret : List String),
    CommandConfig.argsNodes nodes ret = ret ++ (nodes.map Node.passthroughLiterals).flatten
  | [], ret => by simp [CommandConfig.argsNodes]
  | .passthroughArgs ns :: rest, ret => by
    have ih := CommandConfig.argsNodes_eq rest (CommandConfig.argsIdents ns ret)
    rw [CommandConfig.argsNodes, ih, CommandConfig.argsIdents_eq]
    simp [Node.passthroughLiterals]
  | .commandFlag n :: rest, ret => by
    have ih := CommandConfig.argsNodes_eq rest ret
    simp [CommandConfig.argsNodes, ih, Node.passthroughLiterals]
  | .ident l :: rest, ret => by
    have ih := CommandConfig.argsNodes_eq rest ret
    simp [CommandConfig.argsNodes, ih, Node.passthroughLiterals]
  | .other :: rest, ret => by
    have ih := CommandConfig.argsNodes_eq rest ret
    simp [CommandConfig.argsNodes, ih, Node.passthroughLiterals]

theorem Node.identLiteral_idents (tokens : List String) :
    (tokens.map Node.ident).filterMap Node.identLiteral = tokens := by
  induction tokens with
  | nil => rfl
  | cons t ts ih =>
    rw [List.map_cons, List.filterMap_cons]
    simp only [Node.identLiteral]
    rw [ih]

/-- C13: `Args` returns the passthrough tokens verbatim. Without a parsed node it
is empty; with a node it is the concatenation, over the node's children in order,
of the literals of the identifiers each passthrough child holds, unchanged and in
their order; a passthrough child holding only identifiers gives back exactly
their literals, whatever they look like. -/
theorem CommandConfig.args_spec (cCfg : CommandConfig) :
    (cCfg.Node = none → cCfg.Args = []) ∧
    (∀ node, cCfg.Node = some node →
      cCfg.Args = (node.Nodes.map Node.passthroughLiterals).flatten) ∧
    (∀ (name : String) (values : GoMap String) (before after : List Argh.Node)
        (tokens : List String),
      cCfg.Node = some (.mk name values
        (before ++ [.passthroughArgs (tokens.map Node.ident)] ++ after)) →
      (before.map Node.passthroughLiterals).flatten = [] →
      (after.map Node.passthroughLiterals).flatten = [] →
      cCfg.Args = tokens) := by
  have h2 : ∀ node, cCfg.Node = some node →
      cCfg.Args = (node.Nodes.map Node.passthroughLiterals).flatten := by
    intro node hnode
    rw [CommandConfig.Args, hnode]
    simp only [CommandConfig.argsNodes_eq, List.nil_append]
  refine ⟨?_, h2, ?_⟩
  · intro hnode
    rw [CommandConfig.Args, hnode]
  · intro name values before after tokens hnode hb ha
    rw [h2 _ hnode]
    have hmid := Node.identLiteral_idents tokens
    simp only [CommandFlag.Nodes, List.map_append, List.flatten_append, hb, ha, List.map_cons,
      List.map_nil, List.flatten_cons, List.flatten_nil, Node.passthroughLiterals, hmid,
      List.nil_append, List.append_nil]

/-- Witness for C13: the tokens of the reordering regression test come back
verbatim, `--beta` and `-t` included; a configuration without node has no
arguments. -/
theorem CommandConfig.args_spec_witness :
    ({} : CommandConfig).Args = [] ∧
    Examples.regressionConfig.Args =
      (Examples.regressionNode.Nodes.map Node.passthroughLiterals).flatten ∧
    Examples.regressionConfig.Args =
      ["zeta", "--beta", "theta", "--alpha", "ori", "--nori", "oin", "--gloin", "-t"] :=
  ⟨(CommandConfig.args_spec {}).1 rfl,
   (CommandConfig.args_spec Examples.regressionConfig).2.1 Examples.regressionNode rfl,
   (CommandConfig.args_spec Examples.regressionConfig).2.2 "test" (.mk [])
     [.commandFlag (.mk "t" (.mk []) [])] [] Examples.regressionTokens rfl rfl rfl⟩

end Argh

namespace Cli

open Argh

/-! ## Writing through a command configuration -/

theorem Flags.set_get_self (fl : Flags) (name : String) (d : FlagConfig) :
    (fl.Set name d).Map.get name = some d :=
  GoMap.find_assign_self fl.Map.entries name d

theorem CommandConfig.set_flags (cCfg : CommandConfig) (name value : String) :
    ∃ fl, (cCfg.Set name value).Flags = some fl ∧
      fl.Map.get name = some { Node := some (.mk name (.mk [(name, value)]) []) } := by
  cases h : cCfg.Flags with
  | none =>
    refine ⟨(Flags.mk none (.mk []) false).Set name _, ?_, Flags.set_get_self _ name _⟩
    simp only [CommandConfig.Set, CommandConfig.SetFlagConfig, h]
  | some fl =>
    refine ⟨fl.Set name _, ?_, Flags.set_get_self _ name _⟩
    simp only [CommandConfig.Set, CommandConfig.SetFlagConfig, h]

/-- C18: round trip of `CommandConfig.Set`. Whatever declaration the name had
before, on a context built over the configuration after `Set` (with any
application, command and parent) `IsSet` is true, `Value` is the value written
and `Count` is 1, and `Lookup` returns a declaration whose node is named `name`
and holds exactly the one value. -/
theorem CommandConfig.set_round_trip (cCfg : CommandConfig) (name value : String)
    (app : Option Cli.App) (cmd : Option Cli.Command) (shellComplete : Bool)
    (parent : Option Context) :
    (Context.mk app cmd shellComplete parent (some (cCfg.Set name value))).IsSet name
      = .ok true ∧
    (Context.mk app cmd shellComplete parent (some (cCfg.Set name value))).Value name
      = .ok (some value) ∧
    (Context.mk app cmd shellComplete parent (some (cCfg.Set name value))).Count name
      = .ok 1 ∧
    (cCfg.Set name value).Lookup name =
      .ok (some { Node := some (.mk name (.mk [(name, value)]) []) }) := by
  obtain ⟨fl, hfl, hget⟩ := CommandConfig.set_flags cCfg name value
  have hholds : (Context.mk app cmd shellComplete parent (some (cCfg.Set name value))).holds
      name (cCfg.Set name value) { Node := some (.mk name (.mk [(name, value)]) []) } :=
    ⟨rfl, fl, hfl, hget⟩
  have hl := Context.lookupFlagSet_first _ name [] _ _ _ _ (Context.lineage_cons _)
    (fun y hy => absurd hy (List.not_mem_nil y)) hholds
  refine ⟨?_, ?_, ?_, ?_⟩
  · simp only [Context.IsSet, Context.flagSet, CommandConfig.GetFlagConfig, hfl,
      Flags.get_of_local fl name _ hget]
    rfl
  · simp only [Context.Value, hl]
    rfl
  · simp only [Context.Count, hl]
    rfl
  · simp only [CommandConfig.Lookup, hfl, Flags.GetShallow, hget]
    rfl

end Cli

namespace Cli

open Argh

/-! ## The invalid-flag-access hook -/

theorem Context.onInvalidFlag_unfold (c : Context) (name : String) :
    c.onInvalidFlag name =
      match c.suppliedHandler with
      | some h => [{ handler := h, cCtx := c, name := name }]
      | none =>
        match c.parent with
        | none => []
        | some p => p.onInvalidFlag name := by
  obtain ⟨a, cm, s, p, f⟩ := c
  cases p <;> simp only [Context.onInvalidFlag, Context.suppliedHandler, Context.App,
    Context.parent]

theorem Context.lineage_head (c x : Context) (post : List Context)
    (h : c.Lineage = [] ++ x :: post) : x = c := by
  rw [Context.lineage_cons, List.nil_append] at h
  exact (List.cons.inj h).1.symm

theorem Context.lineage_tail (c y x : Context) (pre post : List Context)
    (h : c.Lineage = (y :: pre) ++ x :: post) :
    y = c ∧ ∃ p, c.parent = some p ∧ p.Lineage = pre ++ x :: post := by
  rw [Context.lineage_cons, List.cons_append] at h
  obtain ⟨h1, h2⟩ := List.cons.inj h
  refine ⟨h1.symm, ?_⟩
  cases hp : c.parent with
  | none =>
    rw [hp] at h2
    cases pre <;> simp at h2
  | some p =>
    rw [hp] at h2
    exact ⟨p, rfl, h2⟩

theorem Context.onInvalidFlag_nearest (name : String) : ∀ (c : Context)
    (pre post : List Context) (x : Context) (h : Nat),
    c.Lineage = pre ++ x :: post → (∀ y ∈ pre, y.suppliedHandler = none) →
    x.suppliedHandler = some h →
    c.onInvalidFlag name = [{ handler := h, cCtx := x, name := name }]
  | .mk a cm s p f, [], post, x, h, hsplit, _, hx => by
    have hxc := Context.lineage_head _ x post hsplit
    rw [Context.onInvalidFlag_unfold, ← hxc, hx]
  | .mk a cm s p f, y :: pre, post, x, h, hsplit, hpre, hx => by
    obtain ⟨hy, q, hq, hql⟩ := Context.lineage_tail _ y x pre post hsplit
    have hnone := hpre y (List.mem_cons_self y pre)
    rw [hy] at hnone
    simp only [Context.parent] at hq
    subst hq
    have ih := Context.onInvalidFlag_nearest name q pre post x h hql
      (fun z hz => hpre z (List.mem_cons_of_mem y hz)) hx
    rw [Context.onInvalidFlag_unfold, hnone]
    exact ih

theorem Context.onInvalidFlag_none (name : String) : ∀ (c : Context),
    (∀ y ∈ c.Lineage, y.suppliedHandler = none) → c.onInvalidFlag name = []
  | .mk a cm s none f, hall => by
    have h := hall _ (by rw [Context.lineage_cons]; exact List.mem_cons_self _ _)
    rw [Context.onInvalidFlag_unfold, h]
    rfl
  | .mk a cm s (some p) f, hall => by
    have h := hall _ (by rw [Context.lineage_cons]; exact List.mem_cons_self _ _)
    have ih := Context.onInvalidFlag_none name p (fun y hy => hall y (by
      rw [Context.lineage_cons]
      exact List.mem_cons_of_mem _ hy))
    rw [Context.onInvalidFlag_unfold, h]
    exact ih

/-- C16 fails as stated: `hookChildCtx` looks up `zzz`, which no context of its
lineage holds; its own application supplies no handler, so the handler 7 of its
parent `hookRootCtx` is invoked, and the context it receives is `hookRootCtx`, not
the requesting context `hookChildCtx`. -/
theorem Context.invalid_flag_hook_counterexample :
    (∀ y ∈ Examples.hookChildCtx.Lineage, y.lacks "zzz") ∧
    Examples.hookChildCtx.lookupFlagSet "zzz" =
      .ok (none, [{ handler := 7, cCtx := Examples.hookRootCtx, name := "zzz" }]) ∧
    Examples.hookRootCtx ≠ Examples.hookChildCtx := by
  have hlin : Examples.hookChildCtx.Lineage = [Examples.hookChildCtx, Examples.hookRootCtx] :=
    rfl
  refine ⟨?_, rfl, ?_⟩
  · intro y hy
    rw [hlin] at hy
    rcases List.mem_cons.mp hy with h | h
    · rw [h]
      exact Or.inr ⟨_, _, rfl, rfl, rfl⟩
    · rw [List.mem_singleton.mp h]
      exact Or.inr ⟨_, _, rfl, rfl, rfl⟩
  · intro h
    have hd := congrArg Context.depth h
    exact absurd hd (by decide)

/-- C16, amended: when no context of the lineage holds the name, the lookup
returns no flag (`Count` is 0, `Value` is absent) whatever handlers there are, and
it invokes exactly the handler of the nearest context of the lineage whose
application supplies one, once, passing it that nearest context and the name; it
invokes nothing when no application supplies a handler. When a context of the
lineage holds the name, no handler is invoked. -/
theorem Context.invalid_flag_hook (c : Context) (name : String) :
    ((∀ y ∈ c.Lineage, y.lacks name) →
      (∃ calls, c.lookupFlagSet name = .ok (none, calls) ∧
        (∀ (pre post : List Context) (x : Context) (h : Nat),
          c.Lineage = pre ++ x :: post → (∀ y ∈ pre, y.suppliedHandler = none) →
          x.suppliedHandler = some h →
          calls = [{ handler := h, cCtx := x, name := name }]) ∧
        ((∀ y ∈ c.Lineage, y.suppliedHandler = none) → calls = [])) ∧
      c.Count name = .ok 0 ∧ c.Value name = .ok none) ∧
    (∀ (pre post : List Context) (x : Context) (cfg : CommandConfig) (d : FlagConfig),
      c.Lineage = pre ++ x :: post → (∀ y ∈ pre, y.lacks name) → x.holds name cfg d →
      c.lookupFlagSet name = .ok (some (cfg, d), [])) := by
  refine ⟨?_, ?_⟩
  · intro hall
    have hl := Context.lookupFlagSet_none c name hall
    refine ⟨⟨c.onInvalidFlag name, hl, ?_, ?_⟩, ?_, ?_⟩
    · intro pre post x h hsplit hpre hx
      exact Context.onInvalidFlag_nearest name c pre post x h hsplit hpre hx
    · intro hnone
      exact Context.onInvalidFlag_none name c hnone
    · simp only [Context.Count, hl]
    · simp only [Context.Value, hl]
  · intro pre post x cfg d hsplit hpre hx
    exact Context.lookupFlagSet_first c name pre post x cfg d hsplit hpre hx

/-- Witness for the amended C16: from `hookChildCtx` nobody holds `zzz` and the
nearest handler is the one of `hookRootCtx`; `x` is held by `hookChildCtx` itself
and its lookup invokes nothing. -/
theorem Context.invalid_flag_hook_witness :
    (∃ calls, Examples.hookChildCtx.lookupFlagSet "zzz" = .ok (none, calls) ∧
      calls = [{ handler := 7, cCtx := Examples.hookRootCtx, name := "zzz" }]) ∧
    Examples.hookChildCtx.Count "zzz" = .ok 0 ∧
    Examples.hookChildCtx.Value "zzz" = .ok none ∧
    Examples.hookChildCtx.lookupFlagSet "x" =
      .ok (some (Examples.childFlagSet, Examples.childMatched), []) := by
  have hlin : Examples.hookChildCtx.Lineage = [Examples.hookChildCtx, Examples.hookRootCtx] :=
    rfl
  have hall : ∀ y ∈ Examples.hookChildCtx.Lineage, y.lacks "zzz" := by
    intro y hy
    rw [hlin] at hy
    rcases List.mem_cons.mp hy with h | h
    · rw [h]
      exact Or.inr ⟨_, _, rfl, rfl, rfl⟩
    · rw [List.mem_singleton.mp h]
      exact Or.inr ⟨_, _, rfl, rfl, rfl⟩
  have h1 := (Context.invalid_flag_hook Examples.hookChildCtx "zzz").1 hall
  obtain ⟨calls, hcalls, hnear, _⟩ := h1.1
  have hc := hnear [Examples.hookChildCtx] [] Examples.hookRootCtx 7 rfl
    (fun y hy => by rw [List.mem_singleton.mp hy]; rfl) rfl
  exact ⟨⟨calls, hcalls, hc⟩, h1.2.1, h1.2.2,
    (Context.invalid_flag_hook Examples.hookChildCtx "x").2 [] [Examples.hookRootCtx]
      Examples.hookChildCtx Examples.childFlagSet Examples.childMatched rfl
      (fun y hy => absurd hy (List.not_mem_nil y)) ⟨rfl, _, rfl, rfl⟩⟩

end Cli

namespace Cli

open Argh

/-! ## Setting a flag through the context -/

theorem GoMap.assign_head {β : Type} (es : List (String × β)) (k : String) (v : β)
    (hkeys : ∀ kv ∈ es, kv.1 = k) : ∃ rest, GoMap.assign es k v = (k, v) :: rest := by
  cases es with
  | nil => exact ⟨[], rfl⟩
  | cons e rest =>
    obtain ⟨k0, w⟩ := e
    have hk : k0 = k := hkeys (k0, w) (List.mem_cons_self _ _)
    subst hk
    exact ⟨rest, by simp [GoMap.assign]⟩

theorem Context.updateOwnNode_of_lacks (x : Context) (name : String) (node : CommandFlag)
    (h : x.lacks name) : Context.updateOwnNode x.flagSet name node = none := by
  rcases h with hnone | ⟨cfg, fl, hcfg, hfl, hget⟩
  · rw [hnone]
    rfl
  · rw [hcfg]
    simp only [Context.updateOwnNode, hfl, hget]

theorem Context.updateOwnNode_of_holds (x : Context) (name : String) (node : CommandFlag)
    (cfg : CommandConfig) (d : FlagConfig) (h : x.holds name cfg d) :
    ∃ cfg2, Context.updateOwnNode x.flagSet name node = some cfg2 ∧
      ∃ fl2, cfg2.Flags = some fl2 ∧ fl2.Map.get name = some { d with Node := some node } := by
  obtain ⟨hcfg, fl, hfl, hget⟩ := h
  rw [hcfg]
  simp only [Context.updateOwnNode, hfl, hget]
  exact ⟨_, rfl, _, rfl, GoMap.find_assign_self _ name _⟩

theorem Context.updateNode_lookup (name : String) (node : CommandFlag) :
    ∀ (c : Context) (pre post : List Context) (x : Context) (cfg : CommandConfig)
      (d : FlagConfig),
      c.Lineage = pre ++ x :: post → (∀ y ∈ pre, y.lacks name) → x.holds name cfg d →
      ∃ cfg2, Context.lookupFlagSetLoop (c.updateNode name node).Lineage name =
        .ok (some (cfg2, { d with Node := some node }))
  | .mk a cm s par f, [], post, x, cfg, d, hsplit, _, hx => by
    have hxc := Context.lineage_head _ x post hsplit
    rw [hxc] at hx
    obtain ⟨cfg2, hup, hh⟩ := Context.updateOwnNode_of_holds _ name node cfg d hx
    simp only [Context.flagSet] at hup
    have hnew : (Context.mk a cm s par f).updateNode name node =
        .mk a cm s par (some cfg2) := by
      cases par <;> simp only [Context.updateNode, hup]
    rw [hnew, Context.lineage_cons]
    exact ⟨cfg2, Context.lookupFlagSetLoop_hit name _ _ cfg2 _ ⟨rfl, hh⟩⟩
  | .mk a cm s par f, y :: pre, post, x, cfg, d, hsplit, hpre, hx => by
    obtain ⟨hy, p, hp, hpl⟩ := Context.lineage_tail _ y x pre post hsplit
    have hl := hpre y (List.mem_cons_self y pre)
    rw [hy] at hl
    have hup := Context.updateOwnNode_of_lacks _ name node hl
    simp only [Context.flagSet] at hup
    simp only [Context.parent] at hp
    subst hp
    have hnew : (Context.mk a cm s (some p) f).updateNode name node =
        .mk a cm s (some (p.updateNode name node)) f := by
      simp only [Context.updateNode, hup]
    obtain ⟨cfg2, ih⟩ := Context.updateNode_lookup name node p pre post x cfg d hpl
      (fun z hz => hpre z (List.mem_cons_of_mem y hz)) hx
    have hl2 : (Context.mk a cm s (some (p.updateNode name node)) f).lacks name := hl
    have hskip := Context.lookupFlagSetLoop_skip name (p.updateNode name node).Lineage
      [Context.mk a cm s (some (p.updateNode name node)) f]
      (fun z hz => by rw [List.mem_singleton.mp hz]; exact hl2)
    rw [hnew, Context.lineage_child]
    exact ⟨cfg2, hskip.trans ih⟩

theorem Context.lookupFlagSetLoop_some (name : String) : ∀ l : List Context,
    (∃ y ∈ l, ∃ cfg d, y.holds name cfg d) → Context.lookupFlagSetLoop l name ≠ .ok none
  | [], h => by
    obtain ⟨y, hy, _⟩ := h
    exact absurd hy (List.not_mem_nil y)
  | y :: l, h => by
    have ih := Context.lookupFlagSetLoop_some name l
    have hrest : (∀ cfg d, ¬ y.holds name cfg d) →
        ∃ z ∈ l, ∃ cfg d, z.holds name cfg d := by
      intro hny
      obtain ⟨z, hz, cfg, d, hzh⟩ := h
      rcases List.mem_cons.mp hz with hzy | hzl
      · rw [hzy] at hzh
        exact absurd hzh (hny cfg d)
      · exact ⟨z, hzl, cfg, d, hzh⟩
    rw [Context.lookupFlagSetLoop]
    cases hf : y.flagSet with
    | none =>
      exact ih (hrest (fun cfg d hh => by rw [hh.1] at hf; cases hf))
    | some cfg =>
      cases hfl : cfg.Flags with
      | none =>
        simp only [CommandConfig.Lookup, hfl]
        intro hcontra
        cases hcontra
      | some fl =>
        cases hget : fl.Map.get name with
        | some d =>
          simp only [CommandConfig.Lookup, hfl, Flags.GetShallow, hget]
          intro hcontra
          cases hcontra
        | none =>
          simp only [CommandConfig.Lookup, hfl, Flags.GetShallow, hget]
          refine ih (hrest ?_)
          intro cfg2 d hh
          obtain ⟨h1, fl2, h2, h3⟩ := hh
          rw [hf] at h1
          cases h1
          rw [hfl] at h2
          cases h2
          rw [hget] at h3
          cases h3

theorem FlagConfig.set_error (d : FlagConfig) (value : String) (err : Option GoError)
    (after : FlagConfig) (h : d.Set value = .ok (err, after)) :
    err = none ∨ err = some .cannotSetWithoutName := by
  unfold FlagConfig.Set at h
  split at h
  · split at h
    · cases h
      exact Or.inr rfl
    · split at h
      · cases h
      · cases h
        exact Or.inl rfl
  · split at h
    · cases h
    · cases h
      exact Or.inl rfl

/-- C17 fails as stated: `rootCtx` holds `quiet`, a declaration with neither node
nor value names, and `Set` on it returns the error for a flag without name,
leaving the lineage as it was. -/
theorem Context.set_then_value_counterexample :
    Examples.rootCtx.holds "quiet" Examples.rootFlagSet {} ∧
    Examples.rootCtx.Set "quiet" "v" = .ok (some .cannotSetWithoutName, Examples.rootCtx) :=
  ⟨⟨rfl, _, rfl, rfl⟩, rfl⟩

/-- The run of `Set` on a declaration that has value names but no node: the fresh
node has a nil value map and the assignment to its entry panics. -/
theorem Context.set_unmatched_panics :
    Examples.unmatchedCtx.holds "shared" { Flags := some Examples.rootStore }
      Examples.persistDecl ∧
    Examples.unmatchedCtx.Set "shared" "v" = .error .nilMapAssign :=
  ⟨⟨rfl, _, rfl, rfl⟩, rfl⟩

/-- C17, amended: let `x` be the first context of the lineage that has the name in
its own store, with declaration `d`. When `d` has a node whose value map is
non-nil and has no key other than the node's name, `Set` returns no error and a
following `Value` of the name on the resulting lineage returns the value written.
When `d` has neither node nor value names, `Set` returns the error for a flag
without name and changes nothing. -/
theorem Context.set_then_value (c : Context) (name value : String)
    (pre post : List Context) (x : Context) (cfg : CommandConfig) (d : FlagConfig)
    (hsplit : c.Lineage = pre ++ x :: post) (hpre : ∀ y ∈ pre, y.lacks name)
    (hx : x.holds name cfg d) :
    (∀ (node : CommandFlag) (es : List (String × String)),
      d.Node = some node → node.Values = .mk es → (∀ kv ∈ es, kv.1 = node.Name) →
      ∃ after, c.Set name value = .ok (none, after) ∧
        after.Value name = .ok (some value)) ∧
    (d.Node = none → d.ValueNames = [] →
      c.Set name value = .ok (some .cannotSetWithoutName, c)) := by
  have hl := Context.lookupFlagSet_first c name pre post x cfg d hsplit hpre hx
  refine ⟨?_, ?_⟩
  · intro node es hnode hvals hkeys
    have hset : d.Set value = .ok (none, { d with
        Node := some (.mk node.Name (.mk (GoMap.assign es node.Name value)) node.Nodes) }) := by
      simp only [FlagConfig.Set, hnode, CommandFlag.setValue, hvals]
    refine ⟨c.updateNode name
      (.mk node.Name (.mk (GoMap.assign es node.Name value)) node.Nodes), ?_, ?_⟩
    · simp only [Context.Set, hl, hset, hnode]
    · obtain ⟨cfg2, hloop⟩ := Context.updateNode_lookup name
        (.mk node.Name (.mk (GoMap.assign es node.Name value)) node.Nodes)
        c pre post x cfg d hsplit hpre hx
      obtain ⟨rest, hrest⟩ := GoMap.assign_head es node.Name value hkeys
      have hv : (CommandFlag.mk node.Name (.mk (GoMap.assign es node.Name value))
          node.Nodes).Values.entries = (node.Name, value) :: rest := hrest
      have hl2 := hloop
      simp only [Context.Value, Context.lookupFlagSet, hl2, FlagConfig.Values, hv,
        List.map_cons]
  · intro hnode hnames
    have hset : d.Set value = .ok (some .cannotSetWithoutName, d) := by
      simp only [FlagConfig.Set, hnode, hnames]
    simp only [Context.Set, hl, hset, hnode]

/-- Witness for the amended C17: `childCtx` holds `x` with a node whose only value
key is `x`; `quiet`, first held by `rootCtx`, has neither node nor value names. -/
theorem Context.set_then_value_witness :
    (∃ after, Examples.childCtx.Set "x" "new" = .ok (none, after) ∧
      after.Value "x" = .ok (some "new")) ∧
    Examples.childCtx.Set "quiet" "v" =
      .ok (some .cannotSetWithoutName, Examples.childCtx) := by
  refine ⟨?_, ?_⟩
  · refine (Context.set_then_value Examples.childCtx "x" "new" [] [Examples.rootCtx]
      Examples.childCtx Examples.childFlagSet Examples.childMatched rfl
      (fun y hy => absurd hy (List.not_mem_nil y)) ⟨rfl, _, rfl, rfl⟩).1
      (.mk "x" (.mk [("x", "from-child")]) []) [("x", "from-child")] rfl rfl ?_
    intro kv hkv
    rw [List.mem_singleton.mp hkv]
    rfl
  · refine (Context.set_then_value Examples.childCtx "quiet" "v" [Examples.childCtx] []
      Examples.rootCtx Examples.rootFlagSet {} rfl ?_ ⟨rfl, _, rfl, rfl⟩).2 rfl rfl
    intro y hy
    rw [List.mem_singleton.mp hy]
    exact Or.inr ⟨_, _, rfl, rfl, rfl⟩

/-- The behaviour of `Set` on an unknown flag along a lineage whose flag sets all
have a store. When no context of the lineage has the name in its own store, `Set` returns the "no such flag" error for that name and the
lineage, stores and nodes included, is as before. When some context of the lineage
has the name in its own store, `Set` does not return a "no such flag" error. -/
theorem Context.set_unknown_flag (c : Context) (name value : String) :
    ((∀ y ∈ c.Lineage, y.lacks name) →
      c.Set name value = .ok (some (.noSuchFlag name), c)) ∧
    ((∃ y ∈ c.Lineage, ∃ cfg d, y.holds name cfg d) →
      ∀ (n : String) (after : Context), c.Set name value ≠ .ok (some (.noSuchFlag n), after)) := by
  refine ⟨?_, ?_⟩
  · intro hall
    simp only [Context.Set, Context.lookupFlagSet_none c name hall]
  · intro hex n after
    have hne := Context.lookupFlagSetLoop_some name c.Lineage hex
    unfold Context.Set Context.lookupFlagSet
    cases hloop : Context.lookupFlagSetLoop c.Lineage name with
    | error e =>
      intro hcontra
      cases hcontra
    | ok r =>
      cases r with
      | none => exact absurd hloop hne
      | some r =>
        obtain ⟨cfg, d⟩ := r
        simp only []
        cases hset : d.Set value with
        | error e =>
          intro hcontra
          cases hcontra
        | ok r2 =>
          obtain ⟨err, aft⟩ := r2
          have herr := FlagConfig.set_error d value err aft hset
          simp only []
          intro hcontra
          split at hcontra
          · cases hcontra
            rcases herr with h | h <;> cases h
          · cases hcontra
            rcases herr with h | h <;> cases h

/-- An instance of `set_unknown_flag`: from `childCtx` no context holds `zzz`; `rootCtx`, in the
lineage of `childCtx`, holds `quiet`. -/
theorem Context.set_unknown_flag_witness :
    Examples.childCtx.Set "zzz" "v" = .ok (some (.noSuchFlag "zzz"), Examples.childCtx) ∧
    Examples.childCtx.Set "quiet" "v" ≠
      .ok (some (.noSuchFlag "quiet"), Examples.childCtx) := by
  have hlin : Examples.childCtx.Lineage = [Examples.childCtx, Examples.rootCtx] := rfl
  refine ⟨?_, ?_⟩
  · refine (Context.set_unknown_flag Examples.childCtx "zzz" "v").1 ?_
    intro y hy
    rw [hlin] at hy
    rcases List.mem_cons.mp hy with h | h
    · rw [h]
      exact Or.inr ⟨_, _, rfl, rfl, rfl⟩
    · rw [List.mem_singleton.mp h]
      exact Or.inr ⟨_, _, rfl, rfl, rfl⟩
  · refine (Context.set_unknown_flag Examples.childCtx "quiet" "v").2 ?_ "quiet"
      Examples.childCtx
    refine ⟨Examples.rootCtx, ?_, Examples.rootFlagSet, {}, ⟨rfl, _, rfl, rfl⟩⟩
    rw [hlin]
    exact List.mem_cons_of_mem _ (List.mem_singleton.mpr rfl)

end Cli

namespace Cli

open Argh

/-! ## Flag names of a scope and of the lineage -/

theorem firstOccurrences_mem : ∀ (l : List String) (n : String),
    n ∈ firstOccurrences l ↔ n ∈ l
  | [], n => by simp [firstOccurrences]
  | x :: xs, n => by
    have ih := firstOccurrences_mem xs n
    by_cases h : n = x
    · simp [firstOccurrences, h]
    · simp [firstOccurrences, h, ih]

theorem firstOccurrences_nodup : ∀ l : List String, (firstOccurrences l).Nodup
  | [] => by simp [firstOccurrences]
  | x :: xs => by
    have ih := firstOccurrences_nodup xs
    rw [firstOccurrences, List.nodup_cons]
    refine ⟨?_, ih.filter _⟩
    intro hmem
    have := (List.mem_filter.mp hmem).2
    simp at this

theorem firstOccurrences_sublist : ∀ l : List String, (firstOccurrences l).Sublist l
  | [] => by simp [firstOccurrences]
  | x :: xs => by
    have ih := firstOccurrences_sublist xs
    rw [firstOccurrences]
    exact ((List.filter_sublist _).trans ih).cons₂ x

theorem Context.uniqueNames_eq : ∀ (names : List String) (m : List (String × Unit))
    (unames : List String),
    Context.uniqueNames names m unames =
      unames ++ (firstOccurrences names).filter (fun n => (GoMap.find m n).isNone)
  | [], m, unames => by simp [Context.uniqueNames, firstOccurrences]
  | name :: rest, m, unames => by
    cases hf : GoMap.find m name with
    | some u =>
      have ih := Context.uniqueNames_eq rest m unames
      simp only [Context.uniqueNames, hf, ih, firstOccurrences]
      congr 1
      rw [List.filter_cons]
      simp only [hf, Option.isNone_some, Bool.false_eq_true, if_false, List.filter_filter]
      apply List.filter_congr
      intro n _
      by_cases hn : n = name
      · simp [hn, hf]
      · simp [hn]
    | none =>
      have ih := Context.uniqueNames_eq rest (GoMap.assign m name ()) (unames ++ [name])
      simp only [Context.uniqueNames, hf, ih, firstOccurrences]
      rw [List.filter_cons]
      simp only [hf, Option.isNone_none, if_true, List.filter_filter, List.append_assoc,
        List.singleton_append]
      congr 2
      apply List.filter_congr
      intro n _
      by_cases hn : n = name
      · simp [hn, GoMap.find_assign_self]
      · simp [hn, GoMap.find_assign_ne m name n () hn]

theorem makeFlagNameVisitor_append (names : List String) (f : CommandFlag) :
    makeFlagNameVisitor names f = names ++ makeFlagNameVisitor [] f := by
  unfold makeFlagNameVisitor
  simp only []
  split <;> simp

theorem makeFlagNameVisitor_foldl : ∀ (visited : List CommandFlag) (names : List String),
    visited.foldl makeFlagNameVisitor names =
      names ++ (visited.map (makeFlagNameVisitor [])).flatten
  | [], names => by simp
  | f :: rest, names => by
    rw [List.foldl_cons, makeFlagNameVisitor_foldl rest, makeFlagNameVisitor_append]
    simp

theorem Flag.setNames_foldl : ∀ (flags : List Flag) (names : List String),
    flags.foldl (fun names f => if f.IsSet then names ++ f.Names else names) names =
      names ++ ((flags.filter (fun f => f.IsSet)).map (fun f => f.Names)).flatten
  | [], names => by simp
  | f :: rest, names => by
    rw [List.foldl_cons, Flag.setNames_foldl rest]
    cases hf : f.IsSet <;> simp [hf]

theorem Context.gatheredNames_eq (c : Context) (flagSet : CommandConfig)
    (visited : List CommandFlag) (hv : flagSet.Visit = .ok visited) :
    c.gatheredNames flagSet = .ok (c.scopeNames visited) := by
  simp only [Context.gatheredNames, hv, Context.scopeNames, makeFlagNameVisitor_foldl,
    List.nil_append]
  cases c.Command with
  | none => simp
  | some command => simp only [Flag.setNames_foldl]

theorem Context.localFlagNames_eq (c : Context) (flagSet : CommandConfig)
    (visited : List CommandFlag) (hfs : c.flagSet = some flagSet)
    (hv : flagSet.Visit = .ok visited) :
    c.LocalFlagNames = .ok (firstOccurrences (c.scopeNames visited)) := by
  simp only [Context.LocalFlagNames, hfs, Context.gatheredNames_eq c flagSet visited hv,
    Context.uniqueNames_eq, List.nil_append]
  congr 1
  apply List.filter_eq_self.mpr
  intro n _
  rfl

theorem Context.localFlagNames_nodup (c : Context) (l : List String)
    (h : c.LocalFlagNames = .ok l) : l.Nodup := by
  unfold Context.LocalFlagNames at h
  split at h
  · cases h
    exact List.nodup_nil
  · split at h
    · cases h
    · cases h
      rw [Context.uniqueNames_eq]
      exact (firstOccurrences_nodup _).filter _

theorem Context.flagNamesLoop_eq : ∀ (l : List Context) (ls : List (List String))
    (names : List String),
    List.Forall₂ (fun y localNames => y.LocalFlagNames = .ok localNames) l ls →
    Context.flagNamesLoop l names = .ok (names ++ ls.flatten)
  | [], [], names, _ => by simp [Context.flagNamesLoop]
  | y :: l, localNames :: ls, names, h => by
    obtain ⟨hy, hrest⟩ := List.forall₂_cons.mp h
    have ih := Context.flagNamesLoop_eq l ls (names ++ localNames) hrest
    simp only [Context.flagNamesLoop, hy, ih, List.flatten_cons, List.append_assoc]

theorem Context.localFlagNames_source : ∀ (l : List Context) (ls : List (List String)),
    List.Forall₂ (fun y localNames => y.LocalFlagNames = .ok localNames) l ls →
    ∀ names ∈ ls, ∃ y : Context, y.LocalFlagNames = .ok names
  | [], [], _, names, hn => absurd hn (List.not_mem_nil names)
  | y :: l, localNames :: ls, h, names, hn => by
    obtain ⟨hy, hrest⟩ := List.forall₂_cons.mp h
    rcases List.mem_cons.mp hn with heq | hmem
    · exact ⟨y, heq ▸ hy⟩
    · exact Context.localFlagNames_source l ls hrest names hmem

/-- The list `LocalFlagNames` returns when the visit of the flag set returns: it is
deduplicated and order-stable. Without a flag set it is empty. With a flag set whose visit yields the nodes `visited`, it returns a
list without duplicates whose members are exactly the names gathered for the
scope (the visitor's name of each matched node, then the names of the command
flags reporting themselves set), each kept at its first occurrence: the result is
the gathered list without the later repetitions, a sublist of it. -/
theorem Context.localFlagNames_spec (c : Context) :
    (c.flagSet = none → c.LocalFlagNames = .ok []) ∧
    (∀ (flagSet : CommandConfig) (visited : List CommandFlag),
      c.flagSet = some flagSet → flagSet.Visit = .ok visited →
      ∃ unames, c.LocalFlagNames = .ok unames ∧ unames.Nodup ∧
        (∀ n, n ∈ unames ↔ n ∈ c.scopeNames visited) ∧
        unames = firstOccurrences (c.scopeNames visited) ∧
        unames.Sublist (c.scopeNames visited)) := by
  refine ⟨?_, ?_⟩
  · intro h
    simp only [Context.LocalFlagNames, h]
  · intro flagSet visited hfs hv
    exact ⟨_, Context.localFlagNames_eq c flagSet visited hfs hv, firstOccurrences_nodup _,
      firstOccurrences_mem _, rfl, firstOccurrences_sublist _⟩

/-- An instance of `localFlagNames_spec`: in `namesCtx` the nodes of `local` and `x` are visited and the
command flag `x`/`env` reports itself set; `x` is gathered twice and kept once. -/
theorem Context.localFlagNames_spec_witness :
    Examples.namesCtx.scopeNames
      [.mk "local" (.mk [("local", "only-root")]) [], .mk "x" (.mk [("x", "from-root")]) []] =
      ["local", "x", "x", "env"] ∧
    (∃ unames, Examples.namesCtx.LocalFlagNames = .ok unames ∧ unames.Nodup ∧
      unames = ["local", "x", "env"]) ∧
    (Context.mk none none false none none).LocalFlagNames = .ok [] := by
  obtain ⟨unames, h1, h2, _, h4, _⟩ :=
    (Context.localFlagNames_spec Examples.namesCtx).2 Examples.rootFlagSet
      [.mk "local" (.mk [("local", "only-root")]) [], .mk "x" (.mk [("x", "from-root")]) []]
      rfl rfl
  exact ⟨rfl, ⟨unames, h1, h2, h4.trans rfl⟩,
    (Context.localFlagNames_spec (.mk none none false none none)).1 rfl⟩

/-- C15 fails as stated: `x` is set in `childCtx` and in its parent `rootCtx`, and
`FlagNames` on `childCtx` lists it twice. -/
theorem Context.flagNames_counterexample :
    Examples.childCtx.LocalFlagNames = .ok ["x"] ∧
    Examples.rootCtx.LocalFlagNames = .ok ["local", "x"] ∧
    Examples.childCtx.FlagNames = .ok ["x", "local", "x"] ∧
    ¬ (["x", "local", "x"] : List String).Nodup :=
  ⟨rfl, rfl, rfl, by decide⟩

/-- C15, amended: `FlagNames` lists the names set in the context and in all of its
ancestors, innermost context first: it is the `LocalFlagNames` of the contexts of
the lineage one after the other. The names of each single context appear without
duplicates; nothing is removed across contexts. -/
theorem Context.flagNames_spec (c : Context) (ls : List (List String))
    (h : List.Forall₂ (fun y localNames => y.LocalFlagNames = .ok localNames) c.Lineage ls) :
    c.FlagNames = .ok ls.flatten ∧ ∀ l ∈ ls, l.Nodup := by
  refine ⟨?_, ?_⟩
  · have := Context.flagNamesLoop_eq c.Lineage ls [] h
    simpa [Context.FlagNames] using this
  · intro l hl
    obtain ⟨y, hy⟩ := Context.localFlagNames_source c.Lineage ls h l hl
    exact Context.localFlagNames_nodup y l hy

/-- Witness for the amended C15: the lineage of `childCtx` is `childCtx`, `rootCtx`
with local names `x` and `local`, `x`. -/
theorem Context.flagNames_spec_witness :
    Examples.childCtx.FlagNames = .ok ["x", "local", "x"] :=
  (Context.flagNames_spec Examples.childCtx [["x"], ["local", "x"]]
    (show List.Forall₂ _ [Examples.childCtx, Examples.rootCtx] _ from
      List.Forall₂.cons rfl (List.Forall₂.cons rfl List.Forall₂.nil))).1

end Cli

namespace Cli

open Argh

/-! ## Required flags -/

theorem Context.isSet_ok (c : Context) (cfg : CommandConfig) (hfs : c.flagSet = some cfg)
    (name : String) : c.IsSet name = .ok (c.reportsSet name) := by
  simp only [Context.reportsSet, Context.IsSet, hfs]

theorem Context.checkNames_eq (c : Context) (cfg : CommandConfig)
    (hfs : c.flagSet = some cfg) : ∀ (keys : List String) (flagPresent : Bool)
    (flagName : String),
    Context.checkNames c keys (flagPresent, flagName) =
      .ok (flagPresent || keys.any (fun key => c.reportsSet (TrimSpace key)),
        keys.getLast?.getD flagName)
  | [], flagPresent, flagName => by simp [Context.checkNames]
  | key :: rest, flagPresent, flagName => by
    have hlast : (key :: rest).getLast?.getD flagName = rest.getLast?.getD key := by
      cases rest with
      | nil => rfl
      | cons k ks =>
        rw [List.getLast?_cons_cons,
          List.getLast?_eq_getLast (k :: ks) (List.cons_ne_nil k ks)]
        rfl
    rw [Context.checkNames, Context.isSet_ok c cfg hfs, hlast]
    cases hb : c.reportsSet (TrimSpace key) with
    | true =>
      simp only [Context.checkNames_eq c cfg hfs rest, List.any_cons, hb]
      simp
    | false =>
      simp only [Context.checkNames_eq c cfg hfs rest, List.any_cons, hb]
      simp

theorem Context.checkFlags_eq (c : Context) (cfg : CommandConfig)
    (hfs : c.flagSet = some cfg) : ∀ (flags : List Flag) (missingFlags : List String),
    Context.checkFlags c flags missingFlags =
      .ok (missingFlags ++ flags.filterMap c.missingName)
  | [], missingFlags => by simp [Context.checkFlags]
  | f :: rest, missingFlags => by
    rw [Context.checkFlags, List.filterMap_cons]
    by_cases hreq : f.IsRequired = some true
    · rw [if_pos hreq, Context.checkNames_eq c cfg hfs]
      simp only [Bool.false_or]
      by_cases hset : f.Names.any (fun key => c.reportsSet (TrimSpace key)) = true
      · have hm : c.missingName f = none := by
          simp [Context.missingName, hreq, hset]
        simp only [hset, hm, Bool.not_true, Bool.false_and, Bool.false_eq_true, if_false]
        exact Context.checkFlags_eq c cfg hfs rest missingFlags
      · have hset2 : f.Names.any (fun key => c.reportsSet (TrimSpace key)) = false := by
          simpa using hset
        by_cases hlast : f.Names.getLast?.getD "" = ""
        · have hm : c.missingName f = none := by
            simp [Context.missingName, hreq, hset2, hlast]
          simp only [hset2, hm, hlast, Bool.not_false, Bool.true_and, ne_eq, not_true_eq_false,
            decide_False, Bool.false_eq_true, if_false]
          exact Context.checkFlags_eq c cfg hfs rest missingFlags
        · have hm : c.missingName f = some (f.Names.getLast?.getD "") := by
            simp [Context.missingName, hreq, hset2, hlast]
          simp only [hset2, hm, Bool.not_false, Bool.true_and, ne_eq, hlast, not_false_eq_true,
            decide_True, if_true]
          rw [Context.checkFlags_eq c cfg hfs rest]
          simp
    · have hm : c.missingName f = none := by
        simp [Context.missingName, hreq]
      rw [if_neg hreq, hm]
      exact Context.checkFlags_eq c cfg hfs rest missingFlags

/-- C12 fails as stated: both flags of `requiredUnnamed` are required and `IsSet`
is true for none of their names, yet `checkRequiredFlags` on `rootCtx` returns no
failure, because a flag is only reported under a non-empty last name. -/
theorem Context.checkRequiredFlags_counterexample :
    (∀ f ∈ Examples.requiredUnnamed, f.IsRequired = some true ∧
      ∀ key ∈ f.Names, Examples.rootCtx.IsSet (TrimSpace key) = .ok false) ∧
    Examples.rootCtx.checkRequiredFlags Examples.requiredUnnamed = .ok none := by
  refine ⟨?_, rfl⟩
  intro f hf
  simp only [Examples.requiredUnnamed, List.mem_cons, List.mem_singleton, List.not_mem_nil,
    or_false] at hf
  rcases hf with h | h
  · rw [h]
    exact ⟨rfl, fun key hkey => absurd hkey (List.not_mem_nil key)⟩
  · rw [h]
    refine ⟨rfl, ?_⟩
    intro key hkey
    simp only [List.mem_cons, List.mem_singleton, List.not_mem_nil, or_false] at hkey
    rcases hkey with hk | hk <;> rw [hk] <;> rfl

/-- C12, amended: on a context that has a flag set, `checkRequiredFlags` returns,
and its result is a single failure listing, in declaration order, the last name of
every required flag for none of whose trimmed names `IsSet` is true and whose last
name is not empty; it returns no failure iff every required flag has a name for
which `IsSet` is true, or has no name or an empty last name. -/
theorem Context.checkRequiredFlags_spec (c : Context) (cfg : CommandConfig)
    (flags : List Flag) (hfs : c.flagSet = some cfg) :
    c.checkRequiredFlags flags =
      .ok (if flags.filterMap c.missingName = [] then none
        else some (flags.filterMap c.missingName)) ∧
    (c.checkRequiredFlags flags = .ok none ↔
      ∀ f ∈ flags, f.IsRequired = some true →
        (∃ key ∈ f.Names, c.IsSet (TrimSpace key) = .ok true) ∨
        f.Names.getLast?.getD "" = "") := by
  have hres : c.checkRequiredFlags flags =
      .ok (if flags.filterMap c.missingName = [] then none
        else some (flags.filterMap c.missingName)) := by
    rw [Context.checkRequiredFlags, Context.checkFlags_eq c cfg hfs, List.nil_append]
    cases hm : flags.filterMap c.missingName with
    | nil => rfl
    | cons m ms => rfl
  refine ⟨hres, ?_⟩
  have hnone : ∀ f, c.missingName f = none ↔
      (f.IsRequired = some true →
        (∃ key ∈ f.Names, c.IsSet (TrimSpace key) = .ok true) ∨
        f.Names.getLast?.getD "" = "") := by
    intro f
    have hset : (∃ key ∈ f.Names, c.IsSet (TrimSpace key) = .ok true) ↔
        f.Names.any (fun key => c.reportsSet (TrimSpace key)) = true := by
      rw [List.any_eq_true]
      constructor
      · rintro ⟨key, hk, hs⟩
        rw [Context.isSet_ok c cfg hfs] at hs
        exact ⟨key, hk, by injection hs⟩
      · rintro ⟨key, hk, hs⟩
        exact ⟨key, hk, by rw [Context.isSet_ok c cfg hfs, hs]⟩
    rw [hset]
    unfold Context.missingName
    by_cases hreq : f.IsRequired = some true
    · by_cases hany : f.Names.any (fun key => c.reportsSet (TrimSpace key)) = true
      · simp [hreq, hany]
      · by_cases hlast : f.Names.getLast?.getD "" = ""
        · simp [hreq, hlast]
        · simp [hreq, hany, hlast]
    · simp [hreq]
  rw [hres]
  constructor
  · intro h f hf
    have hnil : flags.filterMap c.missingName = [] := by
      by_contra hne
      rw [if_neg hne] at h
      cases h
    have := List.filterMap_eq_nil_iff.mp hnil f hf
    exact (hnone f).mp this
  · intro h
    have hnil : flags.filterMap c.missingName = [] :=
      List.filterMap_eq_nil_iff.mpr (fun f hf => (hnone f).mpr (h f hf))
    rw [if_pos hnil]

/-- Witness for the amended C12: neither `a` nor `b` is set in `rootCtx`, and both
are reported in one failure. -/
theorem Context.checkRequiredFlags_spec_witness :
    Examples.rootCtx.checkRequiredFlags Examples.requiredAB = .ok (some ["a", "b"]) :=
  (Context.checkRequiredFlags_spec Examples.rootCtx Examples.rootFlagSet Examples.requiredAB
    rfl).1.trans rfl

end Cli

namespace Argh

/-! ## Automatic mode along the chain of stores -/

theorem Flags.get_persisted_iff (name : String) : ∀ (fl : Flags) (d : FlagConfig),
    (fl.Get name = (d, true) ∧ d.Persist = true) ↔
      ∃ (pre post : List Flags) (s : Flags),
        fl.chain = pre ++ s :: post ∧
        (∀ t ∈ pre, t.Map.get name = none ∧ t.Automatic = false) ∧
        s.Map.get name = some d ∧ d.Persist = true
  | .mk parent m a, d => by
    have hun := Flags.get_unfold (.mk parent m a) name
    have hch := Flags.chain_cons (.mk parent m a)
    simp only [Flags.Map, Flags.Automatic, Flags.Parent] at hun hch
    constructor
    · rintro ⟨hget, hpers⟩
      cases hm : m.get name with
      | some d0 =>
        rw [hm] at hun
        have hd : d0 = d := (Prod.mk.inj (hun.symm.trans hget)).1
        subst hd
        exact ⟨[], _, .mk parent m a, hch, fun t ht => absurd ht (List.not_mem_nil t), hm,
          hpers⟩
      | none =>
        rw [hm] at hun
        cases a with
        | true =>
          have hd : d = {} := (Prod.mk.inj (hun.symm.trans hget)).1.symm
          rw [hd] at hpers
          exact absurd hpers (by decide)
        | false =>
          cases parent with
          | none =>
            exact absurd (Prod.mk.inj (hun.symm.trans hget)).2 (by decide)
          | some p =>
            have ih := Flags.get_persisted_iff name p d
            have h2 := hun.symm.trans hget
            simp only [Bool.false_eq_true, if_false] at h2
            obtain ⟨h3, h4⟩ := Prod.mk.inj h2
            have h5 : (p.Get name).2 = true ∧ (p.Get name).1.Persist = true := by
              simpa using h4
            have hp : p.Get name = (d, true) := Prod.ext h3 h5.1
            obtain ⟨pre, post, s, hc, hpre, hs, hn⟩ := ih.mp ⟨hp, hpers⟩
            refine ⟨.mk (some p) m false :: pre, post, s, ?_, ?_, hs, hn⟩
            · rw [hch]
              show _ :: p.chain = _
              rw [hc]
              rfl
            · intro t ht
              rcases List.mem_cons.mp ht with h | h
              · rw [h]
                exact ⟨hm, rfl⟩
              · exact hpre t h
    · rintro ⟨pre, post, s, hc, hpre, hs, hpers⟩
      refine ⟨?_, hpers⟩
      cases pre with
      | nil =>
        have hsfl := Flags.chain_head _ s post hc
        rw [hsfl] at hs
        exact Flags.get_of_local _ name d hs
      | cons t pre =>
        obtain ⟨ht, p, hp, hpc⟩ := Flags.chain_tail _ t s pre post hc
        have htl := hpre t (List.mem_cons_self t pre)
        rw [ht] at htl
        simp only [Flags.Map, Flags.Automatic, Flags.Parent] at htl hp
        obtain ⟨hm, ha⟩ := htl
        subst ha
        subst hp
        have ih := Flags.get_persisted_iff name p d
        have hpg : p.Get name = (d, true) :=
          (ih.mpr ⟨pre, post, s, hpc, fun u hu => hpre u (List.mem_cons_of_mem t hu), hs,
            hpers⟩).1
        rw [hm] at hun
        rw [hun]
        simp [hpg, hpers]

theorem Flags.get_inherited_persist (fl : Flags) (name : String)
    (hauto : fl.Automatic = false) (hown : fl.Map.get name = none)
    (hfound : (fl.Get name).2 = true) : (fl.Get name).1.Persist = true := by
  have hun := Flags.get_unfold fl name
  rw [hown, hauto] at hun
  cases hp : fl.Parent with
  | none =>
    rw [hp] at hun
    rw [hun] at hfound
    simp at hfound
  | some p =>
    rw [hp] at hun
    rw [hun] at hfound ⊢
    have h5 : (p.Get name).2 = true ∧ (p.Get name).1.Persist = true := by
      simpa using hfound
    exact h5.2

/-- C21: automatic mode is not inherited. For a store that is not automatic and
does not have the name in its own map: when its parent is automatic and lacks the
name too, the parent's own `Get` synthesizes the empty declaration with found =
true, but the child's `Get` reports found = false; and in general the child's
`Get` finds the name iff the first store of its chain that has the name in its
own map marks it persist and no store before that one is automatic. -/
theorem Flags.automatic_not_inherited (fl : Flags) (name : String)
    (hauto : fl.Automatic = false) (hown : fl.Map.get name = none) :
    (∀ parent, fl.Parent = some parent → parent.Automatic = true →
      parent.Map.get name = none →
      parent.Get name = ({}, true) ∧ (fl.Get name).2 = false) ∧
    ((fl.Get name).2 = true ↔ fl.inheritsPersisted name) := by
  refine ⟨?_, ?_, ?_⟩
  · intro parent hparent hpa hpn
    have hp := Flags.get_of_automatic parent name hpn hpa
    refine ⟨hp, ?_⟩
    rw [Flags.get_unfold, hown, hauto, hparent]
    simp [hp]
  · intro hfound
    have hpers := Flags.get_inherited_persist fl name hauto hown hfound
    obtain ⟨pre, post, s, h1, h2, h3, h4⟩ :=
      (Flags.get_persisted_iff name fl (fl.Get name).1).mp ⟨Prod.ext rfl hfound, hpers⟩
    exact ⟨pre, post, s, _, h1, h2, h3, h4⟩
  · rintro ⟨pre, post, s, d, h1, h2, h3, h4⟩
    have hg := ((Flags.get_persisted_iff name fl d).mpr ⟨pre, post, s, h1, h2, h3, h4⟩).1
    rw [hg]

/-- Witness for C21: `underAutoStore` is not automatic and lacks `zzz`, as does its
automatic parent `autoStore`; `childStore` lacks `shared`, which its parent
`rootStore` declares persist. -/
theorem Flags.automatic_not_inherited_witness :
    (Examples.autoStore.Get "zzz" = ({}, true) ∧
      (Examples.underAutoStore.Get "zzz").2 = false) ∧
    ((Examples.childStore.Get "shared").2 = true ↔
      Examples.childStore.inheritsPersisted "shared") :=
  ⟨(Flags.automatic_not_inherited Examples.underAutoStore "zzz" rfl rfl).1
      Examples.autoStore rfl rfl rfl,
   (Flags.automatic_not_inherited Examples.childStore "shared" rfl rfl).2⟩

end Argh

namespace Cli

open Argh

/-! ## Configurations with a nil `Flags`

`GetFlagConfig`, `SetFlagConfig` and `SetDefaultFlagConfig` replace a nil `Flags`
by a fresh store before using it; `Lookup` and `Visit` use it as it is. -/

/-- C8 at the failing input: `zeroConfigCtx` is a context over the zero
configuration, whose `Flags` is nil, and its parent `rootCtx` holds `x` with one
collected value. `Count` of `x` should be 1 (it is on `rootCtx`) and `Count` of
`zzz`, which no context holds, should be 0; both runs dereference nil in `Lookup`.
`GetFlagConfig` on the same configuration answers, and so does `IsSet`. -/
theorem Context.count_nil_flags :
    Examples.zeroConfigCtx.Lineage = [Examples.zeroConfigCtx, Examples.rootCtx] ∧
    Examples.zeroConfigCtx.flagSet = some {} ∧
    ({} : CommandConfig).Flags = none ∧
    Examples.rootCtx.Count "x" = .ok 1 ∧
    Examples.zeroConfigCtx.Count "x" = .error .nilDeref ∧
    Examples.zeroConfigCtx.Count "zzz" = .error .nilDeref ∧
    ({} : CommandConfig).GetFlagConfig "x" = ({}, false) ∧
    Examples.zeroConfigCtx.IsSet "x" = .ok false :=
  ⟨rfl, rfl, rfl, rfl, rfl, rfl, rfl, rfl⟩

/-- C14 at the failing input: on `zeroConfigCtx`, a context over the zero
configuration, `LocalFlagNames` returns no list: `Visit` reads the map through the
nil `Flags`. No node matched and the context has no command, so the list should
be empty. -/
theorem Context.localFlagNames_nil_flags :
    Examples.zeroConfigCtx.flagSet = some {} ∧
    ({} : CommandConfig).Flags = none ∧
    Examples.zeroConfigCtx.Command = none ∧
    ({} : CommandConfig).Visit = .error .nilDeref ∧
    Examples.zeroConfigCtx.LocalFlagNames = .error .nilDeref :=
  ⟨rfl, rfl, rfl, rfl, rfl⟩

/-- C20 at the failing input: the lineage of `zeroConfigCtx` is `zeroConfigCtx`,
whose configuration has no store at all, and `rootCtx`, whose store has no entry
for `zzz`; so no context has `zzz` in its own store, and `Set` should return the
"no such flag" error. The run dereferences nil in `Lookup`. -/
theorem Context.set_nil_flags :
    Examples.zeroConfigCtx.Lineage = [Examples.zeroConfigCtx, Examples.rootCtx] ∧
    Examples.zeroConfigCtx.flagSet = some {} ∧
    ({} : CommandConfig).Flags = none ∧
    Examples.rootCtx.flagSet = some Examples.rootFlagSet ∧
    Examples.rootFlagSet.Flags = some Examples.rootMatchedStore ∧
    Examples.rootMatchedStore.Map.get "zzz" = none ∧
    Examples.rootCtx.Set "zzz" "v" = .ok (some (.noSuchFlag "zzz"), Examples.rootCtx) ∧
    Examples.zeroConfigCtx.Set "zzz" "v" = .error .nilDeref :=
  ⟨rfl, rfl, rfl, rfl, rfl, rfl, rfl, rfl⟩

end Cli
